import Mathlib

/-!
Verification of the sing-box control-plane core of this repository:
the configuration synthesizer (`app/singbox/config.py`), the process
supervisor (`app/singbox/core.py`) and the reconciliation layer
(`app/singbox/operations.py`).

The Python configuration document is modelled as a JSON-like value
(`JVal`); Python dictionaries are association lists with Python's
insertion-order update semantics; fallible Python code (attribute
errors on non-dict values) is modelled with `Except`.
-/

set_option autoImplicit false

namespace SingBox

/-- A JSON-like value: the engine's configuration document tree.
Python `None`/`bool`/`int`/`str`/`list`/`dict` respectively. -/
inductive JVal where
  | null
  | bool (b : Bool)
  | num (n : Int)
  | str (s : String)
  | arr (elems : List JVal)
  | obj (fields : List (String × JVal))

/-- A Python dict with string keys (a JSON object). -/
abbrev JObj := List (String × JVal)

/-- Python `d.get(k)`: first binding of `k`, `none` models `None` for an
absent key. -/
def jget : JObj → String → Option JVal
  | [], _ => none
  | (k', v) :: rest, k => if k' = k then some v else jget rest k

/-- Python `d.get(k, default)`. -/
def jgetD (o : JObj) (k : String) (d : JVal) : JVal :=
  (jget o k).getD d

/-- Python `d[k] = v`: replace the first binding in place, else append. -/
def jset : JObj → String → JVal → JObj
  | [], k, v => [(k, v)]
  | (k', v') :: rest, k, v =>
      if k' = k then (k, v) :: rest else (k', v') :: jset rest k v

/-- Python `d.update(e)`: assign each binding of `e` into `d` in order. -/
def jupdate (o : JObj) (e : JObj) : JObj :=
  e.foldl (fun acc kv => jset acc kv.1 kv.2) o

/-- Python truthiness of a value. -/
def jtruthy : JVal → Bool
  | .null => false
  | .bool b => b
  | .num n => n != 0
  | .str s => !s.isEmpty
  | .arr xs => !xs.isEmpty
  | .obj kvs => !kvs.isEmpty

/-- Python truthiness of a `d.get(k)` result (`None` when absent). -/
def jtruthyO : Option JVal → Bool
  | none => false
  | some v => jtruthy v

@[simp] theorem jget_jset_self (o : JObj) (k : String) (v : JVal) :
    jget (jset o k v) k = some v := by
  induction o with
  | nil => simp [jget, jset]
  | cons kv rest ih =>
      by_cases h : kv.1 = k <;> simp [jget, jset, h, ih]

theorem jget_jset_ne (o : JObj) (k k' : String) (v : JVal) (h : k ≠ k') :
    jget (jset o k v) k' = jget o k' := by
  induction o with
  | nil => simp [jget, jset, h]
  | cons kv rest ih =>
      by_cases hk : kv.1 = k
      · simp [jget, jset, hk, h]
      · by_cases hk' : kv.1 = k' <;> simp [jget, jset, hk, hk', ih, Ne.symm h]

/-! ## Per-protocol field extraction (`_parse_*_settings`) -/

/-- `_parse_hysteria2_settings`: TLS flag, SNI/ALPN when TLS enabled,
obfuscation fields (empty-string defaults), optional masquerade. -/
def parse_hysteria2_settings (inbound : JObj) : Except String JObj := do
  match jgetD inbound "tls" (.obj []) with
  | .obj tls =>
      let enabled := jtruthyO (jget tls "enabled")
      let s0 : JObj :=
        [("tls", .str (if enabled then "tls" else "none")),
         ("obfs_type", .str ""),
         ("obfs_password", .str "")]
      let s1 :=
        if enabled then
          jset (jset s0 "sni" (jgetD tls "server_name" (.str "")))
            "alpn" (jgetD tls "alpn" (.arr []))
        else s0
      let obfsv := jgetD inbound "obfs" (.obj [])
      let s2 ←
        if jtruthy obfsv then
          match obfsv with
          | .obj ob =>
              pure (jset (jset s1 "obfs_type" (jgetD ob "type" (.str "")))
                "obfs_password" (jgetD ob "password" (.str "")))
          | _ => throw "AttributeError"
        else pure s1
      let masq := jget inbound "masquerade"
      pure (if jtruthyO masq then jset s2 "masquerade" (masq.getD .null) else s2)
  | _ => throw "AttributeError"

/-- `_parse_tuic_settings`: TLS flag, congestion control (default
`"bbr"`), SNI/ALPN when TLS enabled. -/
def parse_tuic_settings (inbound : JObj) : Except String JObj := do
  match jgetD inbound "tls" (.obj []) with
  | .obj tls =>
      let enabled := jtruthyO (jget tls "enabled")
      let s0 : JObj :=
        [("tls", .str (if enabled then "tls" else "none")),
         ("congestion_control", jgetD inbound "congestion_control" (.str "bbr"))]
      if enabled then
        pure (jset (jset s0 "sni" (jgetD tls "server_name" (.str "")))
          "alpn" (jgetD tls "alpn" (.arr [])))
      else pure s0
  | _ => throw "AttributeError"

/-- `_parse_wireguard_settings`: private key, MTU (default 1280), local
address list (default `["10.0.0.1/24"]`). -/
def parse_wireguard_settings (inbound : JObj) : JObj :=
  [("private_key", jgetD inbound "private_key" (.str "")),
   ("mtu", jgetD inbound "mtu" (.num 1280)),
   ("address", jgetD inbound "local_address" (.arr [.str "10.0.0.1/24"]))]

/-! ## Inbound indexing (`_resolve_inbounds`) -/

/-- The `ProxyTypes` enum referenced by the source (`app.models.proxy`):
the three sing-box members plus representative members served by the
sibling engine. -/
inductive ProxyType where
  | vmess | vless | trojan | shadowsocks | hysteria2 | tuic | wireguard
deriving DecidableEq

/-- `SingBoxConfig.SUPPORTED_PROTOCOLS`. -/
def SUPPORTED_PROTOCOLS : List String := ["hysteria2", "tuic", "wireguard"]

/-- `_protocol_to_proxy_type`. -/
def protocol_to_proxy_type (p : String) : Option ProxyType :=
  if p = "hysteria2" then some .hysteria2
  else if p = "tuic" then some .tuic
  else if p = "wireguard" then some .wireguard
  else none

/-- Python `==` between dict keys. Composite values (lists/dicts) are
unhashable in Python and can never reach a dict-key comparison, so they
compare `false` here. -/
def pyEq : JVal → JVal → Bool
  | .null, .null => true
  | .bool a, .bool b => a == b
  | .bool a, .num m => (if a then (1 : Int) else 0) == m
  | .num n, .bool b => n == (if b then (1 : Int) else 0)
  | .num n, .num m => n == m
  | .str a, .str b => a == b
  | _, _ => false

/-- The `inbounds_by_tag` index: Python dict keyed by the tag value. -/
abbrev ByTag := List (JVal × JObj)

/-- The `inbounds_by_protocol` index: protocol enum → settings records. -/
abbrev ByProto := List (ProxyType × List JObj)

/-- Python dict assignment with arbitrary (hashable) keys: replace the
value of the first `==`-equal key in place, else append. -/
def dictSet : ByTag → JVal → JObj → ByTag
  | [], k, v => [(k, v)]
  | (k', v') :: rest, k, v =>
      if pyEq k' k then (k', v) :: rest else (k', v') :: dictSet rest k v

/-- `inbounds_by_protocol[proxy_type].append(settings)` (creating the
bucket when absent, as the source does). -/
def bucketAppend : ByProto → ProxyType → JObj → ByProto
  | [], pt, s => [(pt, [s])]
  | (pt', ss) :: rest, pt, s =>
      if pt' = pt then (pt', ss ++ [s]) :: rest else (pt', ss) :: bucketAppend rest pt s

/-- Python `a or b` over two `d.get` results (absent key = `None`). -/
def pyOr (a b : Option JVal) : JVal :=
  if jtruthyO a then a.getD .null else b.getD .null

/-- The base settings record built for each indexed inbound. -/
def mkBaseSettings (o : JObj) (tagv : JVal) (p : String) : JObj :=
  [("tag", tagv), ("protocol", .str p),
   ("port", pyOr (jget o "listen_port") (jget o "port")),
   ("listen", jgetD o "listen" (.str "::"))]

/-- Protocol-specific settings merged into the base record. -/
def protoSettings (p : String) (o : JObj) : Except String JObj :=
  if p = "hysteria2" then parse_hysteria2_settings o
  else if p = "tuic" then parse_tuic_settings o
  else if p = "wireguard" then pure (parse_wireguard_settings o)
  else pure []

/-- One iteration of the `_resolve_inbounds` loop. -/
def resolveStep (acc : ByTag × ByProto) (v : JVal) : Except String (ByTag × ByProto) :=
  match v with
  | .obj o =>
      let tag := jget o "tag"
      match jget o "type" with
      | some (.str p) =>
          if !jtruthyO tag || !(SUPPORTED_PROTOCOLS.contains p) then pure acc
          else do
            let spec ← protoSettings p o
            let settings := jupdate (mkBaseSettings o (tag.getD .null) p) spec
            let bt := dictSet acc.1 (tag.getD .null) settings
            let bp :=
              match protocol_to_proxy_type p with
              | some pt => bucketAppend acc.2 pt settings
              | none => acc.2
            pure (bt, bp)
      | _ => pure acc
  | _ => throw "AttributeError"

/-- `_resolve_inbounds`: fold over `self.get("inbounds", [])`. -/
def resolve_inbounds (doc : JObj) : Except String (ByTag × ByProto) :=
  match jgetD doc "inbounds" (.arr []) with
  | .arr inbs => inbs.foldlM resolveStep ([], [])
  | _ => throw "TypeError"

/-! ## User snapshot and `include_db_users` -/

/-- `UserStatus` enum. -/
inductive UserStatus where
  | active | on_hold | disabled | expired | limited
deriving DecidableEq

/-- The read-only user snapshot record consumed from the persistence
layer: id, username, status, per-protocol inbound-tag assignments and
per-protocol credential bundles. -/
structure DBUser where
  id : Nat
  username : String
  status : UserStatus
  inbounds : List (ProxyType × List String)
  proxies : List (ProxyType × JObj)

/-- Assoc lookup keyed by the protocol enum (Python dict `get`). -/
def ptLookup {α : Type} : List (ProxyType × α) → ProxyType → Option α
  | [], _ => none
  | (k, v) :: rest, pt => if k = pt then some v else ptLookup rest pt

/-- The DB query filter: `User.status.in_([active, on_hold])`. -/
def filter_db_users (users : List DBUser) : List DBUser :=
  users.filter (fun u => u.status == .active || u.status == .on_hold)

/-- Python `tag in tags` where `tags` is a list of strings and `tag` the
(possibly absent) `"tag"` value of the inbound. -/
def pyInTags (tag : Option JVal) (tags : List String) : Bool :=
  match tag with
  | some (.str s) => tags.contains s
  | _ => false

/-- `proxy_type in user.inbounds and tag in user.inbounds.get(proxy_type, [])`. -/
def userAssigned (u : DBUser) (pt : ProxyType) (tag : Option JVal) : Bool :=
  match ptLookup u.inbounds pt with
  | some tags => pyInTags tag tags
  | none => false

/-- Python `str()` of the stored credential value. Credential bundles
store scalars; composite values are rendered JSON-style. -/
def pyStr : JVal → String
  | .null => "None"
  | .bool true => "True"
  | .bool false => "False"
  | .num n => toString n
  | .str s => s
  | .arr _ => "[...]"
  | .obj _ => "\x7b...\x7d"

/-- `f"\x7buser.id\x7d.\x7buser.username\x7d"`. -/
def dbEntryName (u : DBUser) : String := toString u.id ++ "." ++ u.username

/-- The hysteria2 user entry appended for an eligible user. -/
def h2UserEntry (u : DBUser) (ps : JObj) : JVal :=
  .obj [("name", .str (dbEntryName u)),
        ("password", jgetD ps "password" (.str ""))]

/-- The tuic user entry appended for an eligible user. -/
def tuicUserEntry (u : DBUser) (ps : JObj) : JVal :=
  .obj [("name", .str (dbEntryName u)),
        ("uuid", .str (pyStr (jgetD ps "uuid" (.str "")))),
        ("password", jgetD ps "password" (.str ""))]

/-- The wireguard peer entry appended for an eligible user. -/
def wgPeerEntry (ps : JObj) : JVal :=
  .obj [("public_key", jgetD ps "public_key" (.str "")),
        ("allowed_ips", .arr [jgetD ps "address" (.str "10.0.0.2/32")])]

/-- The per-inbound user/peer list built by the `include_db_users` inner
loop: one entry per already-status-filtered user that is assigned to
this inbound's tag and has a non-empty credential bundle. -/
def inboundUserList (pt : ProxyType) (entry : DBUser → JObj → JVal)
    (us : List DBUser) (tag : Option JVal) : List JVal :=
  us.filterMap (fun u =>
    if userAssigned u pt tag then
      match ptLookup u.proxies pt with
      | some ps => if !ps.isEmpty then some (entry u ps) else none
      | none => none
    else none)

/-- The `include_db_users` loop body for one inbound dict. -/
def transformInbound (us : List DBUser) (o : JObj) : JObj :=
  let tag := jget o "tag"
  match jget o "type" with
  | some (.str p) =>
      if !(SUPPORTED_PROTOCOLS.contains p) then o
      else
        match protocol_to_proxy_type p with
        | none => o
        | some pt =>
            if p = "hysteria2" then
              jset o "users" (.arr (inboundUserList pt h2UserEntry us tag))
            else if p = "tuic" then
              jset o "users" (.arr (inboundUserList pt tuicUserEntry us tag))
            else if p = "wireguard" then
              jset o "peers" (.arr (inboundUserList pt (fun _ ps => wgPeerEntry ps) us tag))
            else o
  | _ => o

/-- `include_db_users`: on a copy of the document, query the snapshot of
active/on-hold users and rebuild every supported inbound's user/peer
list. `users` is the full user table; the status filter is the DB query. -/
def include_db_users (doc : JObj) (users : List DBUser) : Except String JObj := do
  let us := filter_db_users users
  match jget doc "inbounds" with
  | none => pure doc
  | some (.arr inbs) =>
      let inbs' ← inbs.mapM (fun v =>
        match v with
        | .obj o => pure (JVal.obj (transformInbound us o))
        | _ => throw "AttributeError")
      pure (jset doc "inbounds" (.arr inbs'))
  | some _ => throw "TypeError"

/-! ## Basic lemmas about the Except embedding -/

theorem exceptBind_ok {α β : Type} (e : Except String α) (g : α → Except String β)
    (y : β) (h : (e >>= g) = .ok y) : ∃ x, e = .ok x ∧ g x = .ok y := by
  cases e with
  | ok x => exact ⟨x, rfl, by simpa [Bind.bind, Except.bind] using h⟩
  | error msg => simp [Bind.bind, Except.bind] at h

theorem mapM_ok_mem {α β : Type} (f : α → Except String β) :
    ∀ (xs : List α) (ys : List β), xs.mapM f = .ok ys →
      ∀ y ∈ ys, ∃ x ∈ xs, f x = .ok y := by
  intro xs
  induction xs with
  | nil =>
      intro ys h y hy
      rw [List.mapM_nil] at h
      simp [pure, Except.pure] at h
      subst h; simp at hy
  | cons x xs ih =>
      intro ys h y hy
      rw [List.mapM_cons] at h
      obtain ⟨b, hb, h2⟩ := exceptBind_ok _ _ _ h
      obtain ⟨bs, hbs, h3⟩ := exceptBind_ok _ _ _ h2
      simp [pure, Except.pure] at h3
      subst h3
      rcases List.mem_cons.mp hy with hy | hy
      · exact ⟨x, List.mem_cons_self x xs, hy ▸ hb⟩
      · obtain ⟨x', hx', hfx'⟩ := ih bs hbs y hy
        exact ⟨x', List.mem_cons_of_mem _ hx', hfx'⟩

theorem mapM_ok_get {α β : Type} (f : α → Except String β) :
    ∀ (xs : List α) (ys : List β), xs.mapM f = .ok ys →
      ∀ (i : Nat) (x : α), xs[i]? = some x →
        ∃ y, f x = .ok y ∧ ys[i]? = some y := by
  intro xs
  induction xs with
  | nil => intro ys h i x hx; simp at hx
  | cons a xs ih =>
      intro ys h i x hx
      rw [List.mapM_cons] at h
      obtain ⟨b, hb, h2⟩ := exceptBind_ok _ _ _ h
      obtain ⟨bs, hbs, h3⟩ := exceptBind_ok _ _ _ h2
      simp [pure, Except.pure] at h3
      subst h3
      cases i with
      | zero =>
          simp at hx
          exact ⟨b, hx ▸ hb, by simp⟩
      | succ n =>
          simp at hx
          obtain ⟨y, hy1, hy2⟩ := ih bs hbs n x hx
          exact ⟨y, hy1, by simpa using hy2⟩

/-! ## C9: extraction defaults -/

/-- C9: per-protocol field extraction resolves absent fields to the
stated defaults — a tuic inbound without `congestion_control` gets
`"bbr"`, a wireguard inbound without `mtu`/`local_address` gets `1280`
and `["10.0.0.1/24"]` — and present fields pass through unchanged. -/
theorem tuic_wireguard_parse_defaults (inbound s : JObj) :
    (parse_tuic_settings inbound = .ok s →
      (jget inbound "congestion_control" = none →
        jget s "congestion_control" = some (.str "bbr")) ∧
      (∀ v, jget inbound "congestion_control" = some v →
        jget s "congestion_control" = some v)) ∧
    ((jget inbound "mtu" = none →
        jget (parse_wireguard_settings inbound) "mtu" = some (.num 1280)) ∧
     (∀ v, jget inbound "mtu" = some v →
        jget (parse_wireguard_settings inbound) "mtu" = some v) ∧
     (jget inbound "local_address" = none →
        jget (parse_wireguard_settings inbound) "address" =
          some (.arr [.str "10.0.0.1/24"])) ∧
     (∀ v, jget inbound "local_address" = some v →
        jget (parse_wireguard_settings inbound) "address" = some v) ∧
     (∀ v, jget inbound "private_key" = some v →
        jget (parse_wireguard_settings inbound) "private_key" = some v)) := by
  constructor
  · intro hok
    have hcc : ∀ s', parse_tuic_settings inbound = .ok s' →
        jget s' "congestion_control" =
          some (jgetD inbound "congestion_control" (.str "bbr")) := by
      intro s' h
      unfold parse_tuic_settings at h
      cases htls : jgetD inbound "tls" (.obj []) with
      | obj tls =>
          rw [htls] at h
          by_cases hen : jtruthyO (jget tls "enabled")
          · simp only [hen, if_true, pure, Except.pure, if_pos] at h
            cases h
            rw [jget_jset_ne _ _ _ _ (by decide), jget_jset_ne _ _ _ _ (by decide)]
            simp [jget]
          · simp only [hen, if_false, pure, Except.pure, Bool.false_eq_true] at h
            cases h
            simp [jget]
      | null => rw [htls] at h; exact absurd h (by simp [throw, throwThe, MonadExceptOf.throw])
      | bool b => rw [htls] at h; exact absurd h (by simp [throw, throwThe, MonadExceptOf.throw])
      | num n => rw [htls] at h; exact absurd h (by simp [throw, throwThe, MonadExceptOf.throw])
      | str a => rw [htls] at h; exact absurd h (by simp [throw, throwThe, MonadExceptOf.throw])
      | arr xs => rw [htls] at h; exact absurd h (by simp [throw, throwThe, MonadExceptOf.throw])
    constructor
    · intro habs
      have := hcc s hok
      rwa [jgetD, habs, Option.getD_none] at this
    · intro v hv
      have := hcc s hok
      rwa [jgetD, hv, Option.getD_some] at this
  · refine ⟨?_, ?_, ?_, ?_, ?_⟩
    · intro h; simp [parse_wireguard_settings, jget, jgetD, h]
    · intro v h; simp [parse_wireguard_settings, jget, jgetD, h]
    · intro h; simp [parse_wireguard_settings, jget, jgetD, h]
    · intro v h; simp [parse_wireguard_settings, jget, jgetD, h]
    · intro v h; simp [parse_wireguard_settings, jget, jgetD, h]

/-- Witness for C9 at concrete inputs. -/
theorem tuic_wireguard_parse_defaults_witness :
    jget [("tls", JVal.str "none"), ("congestion_control", JVal.str "bbr")]
      "congestion_control" = some (.str "bbr") ∧
    jget (parse_wireguard_settings []) "mtu" = some (.num 1280) ∧
    jget (parse_wireguard_settings []) "address" = some (.arr [.str "10.0.0.1/24"]) := by
  have t := tuic_wireguard_parse_defaults []
    [("tls", JVal.str "none"), ("congestion_control", JVal.str "bbr")]
  exact ⟨(t.1 rfl).1 rfl, t.2.1 rfl, t.2.2.2.1 rfl⟩

/-! ## C10: falsy-tag inbounds are skipped by index construction -/

/-- C10: an inbound whose type is a supported protocol but whose tag is
missing or otherwise falsy is skipped by `_resolve_inbounds` without
raising: the step leaves both indices unchanged, and a document
containing such an entry resolves exactly like the document without it. -/
theorem falsy_tag_supported_inbound_skipped (o : JObj) (p : String)
    (hp : jget o "type" = some (.str p))
    (_hsup : SUPPORTED_PROTOCOLS.contains p = true)
    (htag : jtruthyO (jget o "tag") = false) :
    (∀ acc, resolveStep acc (.obj o) = .ok acc) ∧
    (∀ (pre post : List JVal) (acc : ByTag × ByProto),
      (pre ++ JVal.obj o :: post).foldlM resolveStep acc =
        (pre ++ post).foldlM resolveStep acc) := by
  have hstep : ∀ acc, resolveStep acc (.obj o) = .ok acc := by
    intro acc
    simp [resolveStep, hp, htag, pure, Except.pure]
  refine ⟨hstep, ?_⟩
  intro pre post acc
  rw [List.foldlM_append, List.foldlM_append]
  cases hpre : pre.foldlM resolveStep acc with
  | error e => simp [Bind.bind, Except.bind]
  | ok acc' =>
      simp only [Bind.bind, Except.bind]
      rw [List.foldlM_cons, hstep acc']
      simp [Bind.bind, Except.bind]

/-! ## C1/C2: the user lists synthesized by `include_db_users` -/

/-- The claim-level eligibility test for one snapshot user: status
active/on-hold, assigned to this inbound's tag for this protocol, and a
non-empty stored credential bundle for this protocol. -/
def eligibleUser (pt : ProxyType) (tag : Option JVal) (u : DBUser) : Bool :=
  (u.status == .active || u.status == .on_hold) &&
  (userAssigned u pt tag && !((ptLookup u.proxies pt).getD []).isEmpty)

theorem inboundUserList_body_eq (pt : ProxyType) (entry : DBUser → JObj → JVal)
    (tag : Option JVal) (u : DBUser) :
    (if userAssigned u pt tag then
        match ptLookup u.proxies pt with
        | some ps => if !ps.isEmpty then some (entry u ps) else none
        | none => none
      else none) =
      (if userAssigned u pt tag && !((ptLookup u.proxies pt).getD []).isEmpty
        then some (entry u ((ptLookup u.proxies pt).getD [])) else none) := by
  by_cases ha : userAssigned u pt tag
  · cases hl : ptLookup u.proxies pt with
    | some ps => by_cases he : ps.isEmpty <;> simp [ha, hl, he]
    | none => simp [ha, hl]
  · simp [ha]

theorem filter_filterMap_if {α β : Type} (p q : α → Bool) (f : α → β) (xs : List α) :
    ((xs.filter p).filterMap fun a => if q a then some (f a) else none) =
      (xs.filter fun a => p a && q a).map f := by
  induction xs with
  | nil => rfl
  | cons x xs ih =>
      by_cases hp : p x <;> by_cases hq : q x <;>
        simp [List.filter_cons, hp, hq, ih]

/-- The user/peer list of the `include_db_users` inner loop is exactly
one entry per claim-eligible snapshot user, in snapshot order. -/
theorem inboundUserList_eq (pt : ProxyType) (entry : DBUser → JObj → JVal)
    (users : List DBUser) (tag : Option JVal) :
    inboundUserList pt entry (filter_db_users users) tag =
      (users.filter (eligibleUser pt tag)).map
        (fun u => entry u ((ptLookup u.proxies pt).getD [])) := by
  unfold inboundUserList filter_db_users
  have hbody : (fun (u : DBUser) =>
      if userAssigned u pt tag then
        match ptLookup u.proxies pt with
        | some ps => if !ps.isEmpty then some (entry u ps) else none
        | none => none
      else none) =
      (fun u => if userAssigned u pt tag && !((ptLookup u.proxies pt).getD []).isEmpty
        then some (entry u ((ptLookup u.proxies pt).getD [])) else none) :=
    funext (inboundUserList_body_eq pt entry tag)
  rw [hbody, filter_filterMap_if]
  rfl

/-- Whether the `include_db_users` loop considers this inbound dict. -/
def inboundSupported (o : JObj) : Bool :=
  match jget o "type" with
  | some (.str p) => SUPPORTED_PROTOCOLS.contains p
  | _ => false

theorem transformInbound_unsupported (us : List DBUser) (o : JObj)
    (h : inboundSupported o = false) : transformInbound us o = o := by
  unfold inboundSupported at h
  unfold transformInbound
  cases ht : jget o "type" with
  | none => rfl
  | some v =>
      cases v with
      | str p =>
          rw [ht] at h
          have h' : SUPPORTED_PROTOCOLS.contains p = false := h
          have h'' : ¬ (p ∈ SUPPORTED_PROTOCOLS) := by simpa using h'
          simp [h'']
      | null => rfl
      | bool b => rfl
      | num n => rfl
      | arr xs => rfl
      | obj kvs => rfl

theorem transformInbound_h2 (us : List DBUser) (o : JObj)
    (h : jget o "type" = some (.str "hysteria2")) :
    transformInbound us o =
      jset o "users" (.arr (inboundUserList .hysteria2 h2UserEntry us (jget o "tag"))) := by
  simp [transformInbound, h, SUPPORTED_PROTOCOLS, protocol_to_proxy_type]

theorem transformInbound_tuic (us : List DBUser) (o : JObj)
    (h : jget o "type" = some (.str "tuic")) :
    transformInbound us o =
      jset o "users" (.arr (inboundUserList .tuic tuicUserEntry us (jget o "tag"))) := by
  simp [transformInbound, h, SUPPORTED_PROTOCOLS, protocol_to_proxy_type]

theorem transformInbound_wg (us : List DBUser) (o : JObj)
    (h : jget o "type" = some (.str "wireguard")) :
    transformInbound us o =
      jset o "peers" (.arr (inboundUserList .wireguard (fun _ ps => wgPeerEntry ps) us (jget o "tag"))) := by
  simp [transformInbound, h, SUPPORTED_PROTOCOLS, protocol_to_proxy_type]

theorem supported_three (p : String) (h : SUPPORTED_PROTOCOLS.contains p = true) :
    p = "hysteria2" ∨ p = "tuic" ∨ p = "wireguard" := by
  simpa [SUPPORTED_PROTOCOLS] using h

/-- Case analysis of the loop body, keyed by the OUTPUT inbound's type
(the loop never changes the `"type"` and `"tag"` keys). -/
theorem transformInbound_output_type (us : List DBUser) (o₀ o : JObj) (p : String)
    (ht : transformInbound us o₀ = o) (hty : jget o "type" = some (.str p)) :
    jget o₀ "type" = some (.str p) ∧ jget o "tag" = jget o₀ "tag" ∧
    (p = "hysteria2" →
      o = jset o₀ "users" (.arr (inboundUserList .hysteria2 h2UserEntry us (jget o₀ "tag")))) ∧
    (p = "tuic" →
      o = jset o₀ "users" (.arr (inboundUserList .tuic tuicUserEntry us (jget o₀ "tag")))) ∧
    (p = "wireguard" →
      o = jset o₀ "peers" (.arr (inboundUserList .wireguard (fun _ ps => wgPeerEntry ps) us (jget o₀ "tag")))) ∧
    (SUPPORTED_PROTOCOLS.contains p = false → o = o₀) := by
  by_cases hs : inboundSupported o₀ = true
  · unfold inboundSupported at hs
    cases ht0 : jget o₀ "type" with
    | none => rw [ht0] at hs; cases hs
    | some v =>
        cases v with
        | str p₀ =>
            rw [ht0] at hs
            have hs' : SUPPORTED_PROTOCOLS.contains p₀ = true := hs
            rcases supported_three p₀ hs' with h3 | h3 | h3 <;> subst h3
            · rw [transformInbound_h2 us o₀ ht0] at ht
              subst ht
              rw [jget_jset_ne _ _ _ _ (by decide), ht0] at hty
              have hp : "hysteria2" = p := by simpa using hty
              subst hp
              exact ⟨rfl, jget_jset_ne _ _ _ _ (by decide), fun _ => rfl,
                fun hp => absurd hp (by decide), fun hp => absurd hp (by decide),
                fun hp => absurd hp (by decide)⟩
            · rw [transformInbound_tuic us o₀ ht0] at ht
              subst ht
              rw [jget_jset_ne _ _ _ _ (by decide), ht0] at hty
              have hp : "tuic" = p := by simpa using hty
              subst hp
              exact ⟨rfl, jget_jset_ne _ _ _ _ (by decide),
                fun hp => absurd hp (by decide), fun _ => rfl,
                fun hp => absurd hp (by decide), fun hp => absurd hp (by decide)⟩
            · rw [transformInbound_wg us o₀ ht0] at ht
              subst ht
              rw [jget_jset_ne _ _ _ _ (by decide), ht0] at hty
              have hp : "wireguard" = p := by simpa using hty
              subst hp
              exact ⟨rfl, jget_jset_ne _ _ _ _ (by decide),
                fun hp => absurd hp (by decide), fun hp => absurd hp (by decide),
                fun _ => rfl, fun hp => absurd hp (by decide)⟩
        | null => rw [ht0] at hs; cases hs
        | bool b => rw [ht0] at hs; cases hs
        | num n => rw [ht0] at hs; cases hs
        | arr xs => rw [ht0] at hs; cases hs
        | obj kvs => rw [ht0] at hs; cases hs
  · have hs' : inboundSupported o₀ = false := by
      cases h : inboundSupported o₀
      · rfl
      · exact absurd h hs
    rw [transformInbound_unsupported us o₀ hs'] at ht
    subst ht
    have hsup0 : SUPPORTED_PROTOCOLS.contains p = false := by
      unfold inboundSupported at hs'
      rw [hty] at hs'
      exact hs'
    refine ⟨hty, rfl, ?_, ?_, ?_, fun _ => rfl⟩
    · rintro rfl; exact absurd hsup0 (by decide)
    · rintro rfl; exact absurd hsup0 (by decide)
    · rintro rfl; exact absurd hsup0 (by decide)

/-- From a successful `include_db_users` run, every output inbound is
the transform of some input inbound, and positions are preserved. -/
theorem include_db_users_ok_shape
    (doc : JObj) (users : List DBUser) (doc' : JObj) (inbs inbs' : List JVal)
    (h : include_db_users doc users = .ok doc')
    (hin : jget doc "inbounds" = some (.arr inbs))
    (hi : jget doc' "inbounds" = some (.arr inbs')) :
    (∀ o, JVal.obj o ∈ inbs' →
      ∃ o₀, JVal.obj o₀ ∈ inbs ∧ transformInbound (filter_db_users users) o₀ = o) ∧
    (∀ (i : Nat) (o₀ : JObj), inbs[i]? = some (.obj o₀) →
      inbs'[i]? = some (.obj (transformInbound (filter_db_users users) o₀))) := by
  unfold include_db_users at h
  rw [hin] at h
  obtain ⟨ys, hys, hpure⟩ := exceptBind_ok _ _ _ h
  have hd : doc' = jset doc "inbounds" (.arr ys) := by
    simp [pure, Except.pure] at hpure
    exact hpure.symm
  subst hd
  rw [jget_jset_self] at hi
  have hlist : ys = inbs' := by
    injection hi with h1
    injection h1 with h2
  rw [hlist] at hys
  constructor
  · intro o ho
    obtain ⟨x, hx, hfx⟩ := mapM_ok_mem _ inbs inbs' hys (JVal.obj o) ho
    cases x with
    | obj o₀ =>
        refine ⟨o₀, hx, ?_⟩
        simp [pure, Except.pure] at hfx
        cases hfx
        rfl
    | null => exact absurd hfx (by simp [throw, throwThe, MonadExceptOf.throw])
    | bool b => exact absurd hfx (by simp [throw, throwThe, MonadExceptOf.throw])
    | num n => exact absurd hfx (by simp [throw, throwThe, MonadExceptOf.throw])
    | str s => exact absurd hfx (by simp [throw, throwThe, MonadExceptOf.throw])
    | arr xs => exact absurd hfx (by simp [throw, throwThe, MonadExceptOf.throw])
  · intro i o₀ hi0
    obtain ⟨y, hy1, hy2⟩ := mapM_ok_get _ inbs inbs' hys i (JVal.obj o₀) hi0
    simp [pure, Except.pure] at hy1
    rw [← hy1] at hy2
    exact hy2

/-- C1: for every base document and snapshot, each hysteria2/tuic
inbound in the `include_db_users` output carries a user list with
exactly one entry per snapshot user that is active/on-hold, assigned to
this inbound's tag for that protocol, and has a non-empty credential
bundle; entries are named `<id>.<username>` and carry the stored
password (plus uuid for tuic); all other users contribute no entry. -/
theorem include_db_users_h2_tuic_exact
    (doc : JObj) (users : List DBUser) (doc' : JObj) (inbs inbs' : List JVal) (o : JObj)
    (h : include_db_users doc users = .ok doc')
    (hin : jget doc "inbounds" = some (.arr inbs))
    (hi : jget doc' "inbounds" = some (.arr inbs'))
    (ho : JVal.obj o ∈ inbs') :
    (jget o "type" = some (.str "hysteria2") →
      jget o "users" = some (.arr
        ((users.filter (eligibleUser .hysteria2 (jget o "tag"))).map
          (fun u => h2UserEntry u ((ptLookup u.proxies .hysteria2).getD []))))) ∧
    (jget o "type" = some (.str "tuic") →
      jget o "users" = some (.arr
        ((users.filter (eligibleUser .tuic (jget o "tag"))).map
          (fun u => tuicUserEntry u ((ptLookup u.proxies .tuic).getD []))))) := by
  obtain ⟨hmem, -⟩ := include_db_users_ok_shape doc users doc' inbs inbs' h hin hi
  constructor
  · intro hty
    obtain ⟨o₀, -, ht⟩ := hmem o ho
    obtain ⟨-, -, hh2, -, -, -⟩ :=
      transformInbound_output_type _ o₀ o "hysteria2" ht hty
    rw [hh2 rfl, jget_jset_self, jget_jset_ne _ _ _ _ (by decide),
      inboundUserList_eq]
  · intro hty
    obtain ⟨o₀, -, ht⟩ := hmem o ho
    obtain ⟨-, -, -, htc, -, -⟩ :=
      transformInbound_output_type _ o₀ o "tuic" ht hty
    rw [htc rfl, jget_jset_self, jget_jset_ne _ _ _ _ (by decide),
      inboundUserList_eq]

/-- A sample hysteria2 inbound, document and users for the witnesses. -/
def h1Inbound : JObj := [("type", .str "hysteria2"), ("tag", .str "h1"), ("listen_port", .num 443)]

def sampleDoc : JObj := [("log", .obj []), ("inbounds", .arr [.obj h1Inbound])]

def aliceUser : DBUser :=
  ⟨7, "alice", .active, [(.hysteria2, ["h1"])], [(.hysteria2, [("password", .str "pw1")])]⟩

def bobUser : DBUser :=
  ⟨8, "bob", .disabled, [(.hysteria2, ["h1"])], [(.hysteria2, [("password", .str "pw2")])]⟩

def h1InboundOut : JObj :=
  [("type", .str "hysteria2"), ("tag", .str "h1"), ("listen_port", .num 443),
   ("users", .arr [.obj [("name", .str "7.alice"), ("password", .str "pw1")]])]

def sampleDocOut : JObj := [("log", .obj []), ("inbounds", .arr [.obj h1InboundOut])]

/-- Witness for C1: one active and one disabled user on tag `"h1"`. -/
theorem include_db_users_h2_tuic_exact_witness :
    jget h1InboundOut "users" = some (.arr
      (([aliceUser, bobUser].filter (eligibleUser .hysteria2 (jget h1InboundOut "tag"))).map
        (fun u => h2UserEntry u ((ptLookup u.proxies .hysteria2).getD [])))) :=
  (include_db_users_h2_tuic_exact sampleDoc [aliceUser, bobUser] sampleDocOut
    [.obj h1Inbound] [.obj h1InboundOut] h1InboundOut rfl rfl rfl
    (List.mem_singleton.mpr rfl)).1 rfl

/-- C2 (amended): after `include_db_users`, every SUPPORTED inbound
whose tag has no eligible users carries an explicitly present empty
user/peer list; inbounds of unsupported protocol are left untouched (in
particular no list is injected). -/
theorem include_db_users_empty_or_untouched
    (doc : JObj) (users : List DBUser) (doc' : JObj) (inbs inbs' : List JVal)
    (h : include_db_users doc users = .ok doc')
    (hin : jget doc "inbounds" = some (.arr inbs))
    (hi : jget doc' "inbounds" = some (.arr inbs')) :
    (∀ (o : JObj) (p : String) (pt : ProxyType), JVal.obj o ∈ inbs' →
      jget o "type" = some (.str p) →
      protocol_to_proxy_type p = some pt →
      users.filter (eligibleUser pt (jget o "tag")) = [] →
      jget o (if p = "wireguard" then "peers" else "users") = some (.arr [])) ∧
    (∀ (i : Nat) (o₀ : JObj), inbs[i]? = some (.obj o₀) →
      inboundSupported o₀ = false → inbs'[i]? = some (.obj o₀)) := by
  obtain ⟨hmem, hget⟩ := include_db_users_ok_shape doc users doc' inbs inbs' h hin hi
  constructor
  · intro o p pt ho hty hpt hempty
    obtain ⟨o₀, -, ht⟩ := hmem o ho
    obtain ⟨-, -, hh2, htc, hwg, -⟩ :=
      transformInbound_output_type _ o₀ o p ht hty
    have hp3 : p = "hysteria2" ∨ p = "tuic" ∨ p = "wireguard" := by
      by_cases h1 : p = "hysteria2"
      · exact Or.inl h1
      by_cases h2 : p = "tuic"
      · exact Or.inr (Or.inl h2)
      by_cases h3 : p = "wireguard"
      · exact Or.inr (Or.inr h3)
      simp [protocol_to_proxy_type, h1, h2, h3] at hpt
    rcases hp3 with rfl | rfl | rfl
    · have hptv : pt = ProxyType.hysteria2 := by
        injection hpt with h1; exact h1.symm
      subst hptv
      rw [hh2 rfl] at hempty ⊢
      rw [jget_jset_ne _ _ _ _ (by decide)] at hempty
      simp only [if_neg (by decide : ¬ ("hysteria2" = "wireguard"))]
      rw [jget_jset_self, inboundUserList_eq, hempty]
      rfl
    · have hptv : pt = ProxyType.tuic := by
        injection hpt with h1; exact h1.symm
      subst hptv
      rw [htc rfl] at hempty ⊢
      rw [jget_jset_ne _ _ _ _ (by decide)] at hempty
      simp only [if_neg (by decide : ¬ ("tuic" = "wireguard"))]
      rw [jget_jset_self, inboundUserList_eq, hempty]
      rfl
    · have hptv : pt = ProxyType.wireguard := by
        injection hpt with h1; exact h1.symm
      subst hptv
      rw [hwg rfl] at hempty ⊢
      rw [jget_jset_ne _ _ _ _ (by decide)] at hempty
      rw [if_pos (rfl : "wireguard" = "wireguard")]
      rw [jget_jset_self, inboundUserList_eq, hempty]
      rfl
  · intro i o₀ hio hs
    have := hget i o₀ hio
    rw [transformInbound_unsupported _ o₀ hs] at this
    exact this

/-! ## C3: soundness of the derived indices -/

/-- The engine-protocol name of each `ProxyTypes` member. -/
def ptName : ProxyType → String
  | .vmess => "vmess"
  | .vless => "vless"
  | .trojan => "trojan"
  | .shadowsocks => "shadowsocks"
  | .hysteria2 => "hysteria2"
  | .tuic => "tuic"
  | .wireguard => "wireguard"

/-- Does a settings record carry the (string) tag `t`? -/
def sHasTag (s : JObj) (t : String) : Bool :=
  match jget s "tag" with
  | some (.str x) => x == t
  | _ => false

/-- Does the `inbounds_by_tag` index contain the (string) tag `t`? -/
def byTagHasTag (bt : ByTag) (t : String) : Bool :=
  bt.any (fun kv => pyEq kv.1 (.str t))

/-- Does the protocol bucket of `pt` contain a record tagged `t`? -/
def bucketHasTag (bp : ByProto) (pt : ProxyType) (t : String) : Bool :=
  ((ptLookup bp pt).getD []).any (fun s => sHasTag s t)

/-- Is this inbound entry indexed by `_resolve_inbounds` (truthy tag and
supported declared type)? -/
def keptV (v : JVal) : Bool :=
  match v with
  | .obj o =>
      (match jget o "type" with
       | some (.str p) => SUPPORTED_PROTOCOLS.contains p
       | _ => false) && jtruthyO (jget o "tag")
  | _ => false

/-- Does this inbound entry carry the string tag `t`? -/
def tagStrIs (v : JVal) (t : String) : Bool :=
  match v with
  | .obj o =>
      match jget o "tag" with
      | some (.str x) => x == t
      | _ => false
  | _ => false

/-- Does this inbound entry's type map to the protocol enum `pt`? -/
def protoIs (v : JVal) (pt : ProxyType) : Bool :=
  match v with
  | .obj o =>
      match jget o "type" with
      | some (.str p) => decide (protocol_to_proxy_type p = some pt)
      | _ => false
  | _ => false

theorem pyEq_str_congr (a b : JVal) (t : String) (h : pyEq a b = true) :
    pyEq a (.str t) = pyEq b (.str t) := by
  cases a <;> cases b <;> simp_all [pyEq]

theorem byTagHasTag_dictSet (bt : ByTag) (k : JVal) (v : JObj) (t : String) :
    byTagHasTag (dictSet bt k v) t = (byTagHasTag bt t || pyEq k (.str t)) := by
  induction bt with
  | nil => simp [dictSet, byTagHasTag]
  | cons kv rest ih =>
      by_cases h : pyEq kv.1 k = true
      · simp only [dictSet, h, if_pos]
        simp only [byTagHasTag, List.any_cons]
        rw [pyEq_str_congr kv.1 k t h]
        cases hk : pyEq k (.str t) <;> simp
      · have h' : pyEq kv.1 k = false := by
          cases hx : pyEq kv.1 k
          · rfl
          · exact absurd hx h
        simp only [dictSet, h', Bool.false_eq_true, if_neg, not_false_iff]
        simp only [byTagHasTag, List.any_cons] at ih ⊢
        rw [ih]
        cases pyEq kv.1 (.str t) <;> simp

theorem bucketHasTag_append (bp : ByProto) (pt pt' : ProxyType) (s : JObj) (t : String) :
    bucketHasTag (bucketAppend bp pt s) pt' t =
      (bucketHasTag bp pt' t || (decide (pt = pt') && sHasTag s t)) := by
  induction bp with
  | nil =>
      by_cases h : pt = pt'
      · subst h; simp [bucketAppend, bucketHasTag, ptLookup]
      · simp [bucketAppend, bucketHasTag, ptLookup, h]
  | cons b rest ih =>
      obtain ⟨pt₀, ss⟩ := b
      by_cases h0 : pt₀ = pt
      · subst h0
        by_cases h1 : pt₀ = pt'
        · subst h1
          simp [bucketAppend, bucketHasTag, ptLookup]
        · simp [bucketAppend, bucketHasTag, ptLookup, h1, Ne.symm h1]
      · by_cases h1 : pt₀ = pt'
        · subst h1
          have : ¬ (pt = pt₀) := fun hh => h0 hh.symm
          simp [bucketAppend, bucketHasTag, ptLookup, h0, this]
        · simp only [bucketAppend, if_neg h0]
          simp only [bucketHasTag, ptLookup, if_neg h1] at ih ⊢
          exact ih

theorem dictSet_mem (bt : ByTag) (k : JVal) (v : JObj) :
    ∀ kv ∈ dictSet bt k v, kv.2 = v ∨ kv ∈ bt := by
  induction bt with
  | nil =>
      intro kv hkv
      simp [dictSet] at hkv
      subst hkv; exact Or.inl rfl
  | cons b rest ih =>
      intro kv hkv
      by_cases h : pyEq b.1 k = true
      · simp only [dictSet, h, if_pos] at hkv
        rcases List.mem_cons.mp hkv with h1 | h1
        · subst h1; exact Or.inl rfl
        · exact Or.inr (List.mem_cons_of_mem _ h1)
      · have h' : pyEq b.1 k = false := by
          cases hx : pyEq b.1 k
          · rfl
          · exact absurd hx h
        simp only [dictSet, h', Bool.false_eq_true, if_neg, not_false_iff] at hkv
        rcases List.mem_cons.mp hkv with h1 | h1
        · subst h1; exact Or.inr (List.mem_cons_self _ _)
        · rcases ih kv h1 with h2 | h2
          · exact Or.inl h2
          · exact Or.inr (List.mem_cons_of_mem _ h2)

theorem bucketAppend_mem (bp : ByProto) (pt : ProxyType) (s : JObj) :
    ∀ b ∈ bucketAppend bp pt s,
      b ∈ bp ∨ (b.1 = pt ∧ (b.2 = [s] ∨ ∃ ss, (pt, ss) ∈ bp ∧ b.2 = ss ++ [s])) := by
  induction bp with
  | nil =>
      intro b hb
      simp [bucketAppend] at hb
      subst hb
      exact Or.inr ⟨rfl, Or.inl rfl⟩
  | cons b₀ rest ih =>
      obtain ⟨pt₀, ss₀⟩ := b₀
      intro b hb
      by_cases h0 : pt₀ = pt
      · subst h0
        simp only [bucketAppend, if_pos rfl] at hb
        rcases List.mem_cons.mp hb with h1 | h1
        · subst h1
          exact Or.inr ⟨rfl, Or.inr ⟨ss₀, List.mem_cons_self _ _, rfl⟩⟩
        · exact Or.inl (List.mem_cons_of_mem _ h1)
      · simp only [bucketAppend, if_neg h0] at hb
        rcases List.mem_cons.mp hb with h1 | h1
        · subst h1; exact Or.inl (List.mem_cons_self _ _)
        · rcases ih b h1 with h2 | ⟨h2, h3⟩
          · exact Or.inl (List.mem_cons_of_mem _ h2)
          · refine Or.inr ⟨h2, ?_⟩
            rcases h3 with h3 | ⟨ss, hss, h4⟩
            · exact Or.inl h3
            · exact Or.inr ⟨ss, List.mem_cons_of_mem _ hss, h4⟩

theorem jget_jset_keyfree (o : JObj) (k k' : String) (v : JVal) (hk : k ≠ k')
    (h : jget o k' = none) : jget (jset o k v) k' = none := by
  rw [jget_jset_ne _ _ _ _ hk]; exact h

theorem parse_tuic_no_meta (o s : JObj) (h : parse_tuic_settings o = .ok s) :
    jget s "tag" = none ∧ jget s "protocol" = none := by
  unfold parse_tuic_settings at h
  cases htls : jgetD o "tls" (.obj []) with
  | obj tls =>
      rw [htls] at h
      by_cases hen : jtruthyO (jget tls "enabled")
      · simp only [hen, if_true, pure, Except.pure, if_pos] at h
        cases h
        constructor <;>
          exact jget_jset_keyfree _ _ _ _ (by decide)
            (jget_jset_keyfree _ _ _ _ (by decide) rfl)
      · simp only [hen, if_false, pure, Except.pure, Bool.false_eq_true] at h
        cases h
        exact ⟨rfl, rfl⟩
  | null => rw [htls] at h; exact absurd h (by simp [throw, throwThe, MonadExceptOf.throw])
  | bool b => rw [htls] at h; exact absurd h (by simp [throw, throwThe, MonadExceptOf.throw])
  | num n => rw [htls] at h; exact absurd h (by simp [throw, throwThe, MonadExceptOf.throw])
  | str a => rw [htls] at h; exact absurd h (by simp [throw, throwThe, MonadExceptOf.throw])
  | arr xs => rw [htls] at h; exact absurd h (by simp [throw, throwThe, MonadExceptOf.throw])

theorem h2_finish (o y s : JObj)
    (hy : jget y "tag" = none ∧ jget y "protocol" = none)
    (hp : (pure (if jtruthyO (jget o "masquerade") = true
        then jset y "masquerade" ((jget o "masquerade").getD JVal.null) else y) :
        Except String JObj) = .ok s) :
    jget s "tag" = none ∧ jget s "protocol" = none := by
  simp only [pure, Except.pure] at hp
  injection hp with hp
  subst hp
  by_cases hm : jtruthyO (jget o "masquerade") = true
  · rw [if_pos hm]
    exact ⟨jget_jset_keyfree _ _ _ _ (by decide) hy.1,
      jget_jset_keyfree _ _ _ _ (by decide) hy.2⟩
  · rw [if_neg hm]
    exact hy

theorem h2_s1_keyfree (tls : JObj) :
    jget (if jtruthyO (jget tls "enabled") = true then
        jset (jset [("tls", JVal.str (if jtruthyO (jget tls "enabled") = true then "tls" else "none")),
          ("obfs_type", JVal.str ""), ("obfs_password", JVal.str "")]
          "sni" (jgetD tls "server_name" (.str "")))
          "alpn" (jgetD tls "alpn" (.arr []))
      else [("tls", JVal.str (if jtruthyO (jget tls "enabled") = true then "tls" else "none")),
          ("obfs_type", JVal.str ""), ("obfs_password", JVal.str "")]) "tag" = none ∧
    jget (if jtruthyO (jget tls "enabled") = true then
        jset (jset [("tls", JVal.str (if jtruthyO (jget tls "enabled") = true then "tls" else "none")),
          ("obfs_type", JVal.str ""), ("obfs_password", JVal.str "")]
          "sni" (jgetD tls "server_name" (.str "")))
          "alpn" (jgetD tls "alpn" (.arr []))
      else [("tls", JVal.str (if jtruthyO (jget tls "enabled") = true then "tls" else "none")),
          ("obfs_type", JVal.str ""), ("obfs_password", JVal.str "")]) "protocol" = none := by
  by_cases hen : jtruthyO (jget tls "enabled") = true
  · rw [if_pos hen]
    exact ⟨jget_jset_keyfree _ _ _ _ (by decide)
        (jget_jset_keyfree _ _ _ _ (by decide) rfl),
      jget_jset_keyfree _ _ _ _ (by decide)
        (jget_jset_keyfree _ _ _ _ (by decide) rfl)⟩
  · rw [if_neg hen]
    exact ⟨rfl, rfl⟩

theorem parse_h2_no_meta (o s : JObj) (h : parse_hysteria2_settings o = .ok s) :
    jget s "tag" = none ∧ jget s "protocol" = none := by
  cases htls : jgetD o "tls" (.obj []) with
  | obj tls =>
      simp only [parse_hysteria2_settings, htls] at h
      split at h
      · split at h
        · rename_i ob hobv
          obtain ⟨y, hy, hp⟩ := exceptBind_ok _ _ _ h
          simp only [pure, Except.pure] at hy
          injection hy with hy
          subst hy
          refine h2_finish o _ s ?_ hp
          obtain ⟨h1, h2⟩ := h2_s1_keyfree tls
          exact ⟨jget_jset_keyfree _ _ _ _ (by decide)
              (jget_jset_keyfree _ _ _ _ (by decide) h1),
            jget_jset_keyfree _ _ _ _ (by decide)
              (jget_jset_keyfree _ _ _ _ (by decide) h2)⟩
        · obtain ⟨y, hy, hp⟩ := exceptBind_ok _ _ _ h
          exact absurd hy (by simp [throw, throwThe, MonadExceptOf.throw])
      · obtain ⟨y, hy, hp⟩ := exceptBind_ok _ _ _ h
        simp only [pure, Except.pure] at hy
        injection hy with hy
        subst hy
        exact h2_finish o _ s (h2_s1_keyfree tls) hp
  | null => simp [parse_hysteria2_settings, htls, throw, throwThe, MonadExceptOf.throw] at h
  | bool b => simp [parse_hysteria2_settings, htls, throw, throwThe, MonadExceptOf.throw] at h
  | num n => simp [parse_hysteria2_settings, htls, throw, throwThe, MonadExceptOf.throw] at h
  | str a => simp [parse_hysteria2_settings, htls, throw, throwThe, MonadExceptOf.throw] at h
  | arr xs => simp [parse_hysteria2_settings, htls, throw, throwThe, MonadExceptOf.throw] at h

theorem protoSettings_no_meta (p : String) (o s : JObj)
    (h : protoSettings p o = .ok s) :
    jget s "tag" = none ∧ jget s "protocol" = none := by
  unfold protoSettings at h
  by_cases h1 : p = "hysteria2"
  · rw [if_pos h1] at h; exact parse_h2_no_meta o s h
  rw [if_neg h1] at h
  by_cases h2 : p = "tuic"
  · rw [if_pos h2] at h; exact parse_tuic_no_meta o s h
  rw [if_neg h2] at h
  by_cases h3 : p = "wireguard"
  · rw [if_pos h3] at h
    simp only [pure, Except.pure] at h
    have : s = parse_wireguard_settings o := (Except.ok.injEq _ _ ▸ h).symm
    rw [this]
    exact ⟨rfl, rfl⟩
  · rw [if_neg h3] at h
    simp only [pure, Except.pure] at h
    have : s = [] := (Except.ok.injEq _ _ ▸ h).symm
    rw [this]
    exact ⟨rfl, rfl⟩

theorem jget_jupdate_none (e : JObj) :
    ∀ (o : JObj) (k : String), jget e k = none → jget (jupdate o e) k = jget o k := by
  induction e with
  | nil => intro o k h; rfl
  | cons kv rest ih =>
      intro o k h
      have hk : kv.1 ≠ k := by
        intro hh
        unfold jget at h
        rw [if_pos hh] at h
        cases h
      have hrest : jget rest k = none := by
        unfold jget at h
        rw [if_neg hk] at h
        exact h
      show jget (jupdate (jset o kv.1 kv.2) rest) k = jget o k
      rw [ih (jset o kv.1 kv.2) k hrest, jget_jset_ne _ _ _ _ hk]

/-- The settings record built by `_resolve_inbounds` keeps the tag and
protocol it was built from. -/
theorem settings_meta (o : JObj) (tagv : JVal) (p : String) (spec : JObj)
    (hspec : protoSettings p o = .ok spec) :
    jget (jupdate (mkBaseSettings o tagv p) spec) "tag" = some tagv ∧
    jget (jupdate (mkBaseSettings o tagv p) spec) "protocol" = some (.str p) := by
  obtain ⟨h1, h2⟩ := protoSettings_no_meta p o spec hspec
  rw [jget_jupdate_none spec _ _ h1, jget_jupdate_none spec _ _ h2]
  exact ⟨rfl, rfl⟩

theorem contains_to_proxy_type (p : String)
    (h : SUPPORTED_PROTOCOLS.contains p = true) :
    ∃ pt, protocol_to_proxy_type p = some pt ∧ ptName pt = p ∧
      (pt = .hysteria2 ∨ pt = .tuic ∨ pt = .wireguard) := by
  rcases supported_three p h with rfl | rfl | rfl
  · exact ⟨.hysteria2, rfl, rfl, Or.inl rfl⟩
  · exact ⟨.tuic, rfl, rfl, Or.inr (Or.inl rfl)⟩
  · exact ⟨.wireguard, rfl, rfl, Or.inr (Or.inr rfl)⟩

/-- Complete case analysis of one `_resolve_inbounds` loop iteration. -/
theorem resolveStep_cases (acc acc' : ByTag × ByProto) (v : JVal)
    (h : resolveStep acc v = .ok acc') :
    (acc' = acc ∧ keptV v = false) ∨
    ∃ (o : JObj) (p : String) (tagv : JVal) (spec : JObj) (pt : ProxyType),
      v = .obj o ∧ jget o "type" = some (.str p) ∧
      SUPPORTED_PROTOCOLS.contains p = true ∧
      jget o "tag" = some tagv ∧ jtruthy tagv = true ∧
      protoSettings p o = .ok spec ∧
      protocol_to_proxy_type p = some pt ∧
      acc' = (dictSet acc.1 tagv (jupdate (mkBaseSettings o tagv p) spec),
              bucketAppend acc.2 pt (jupdate (mkBaseSettings o tagv p) spec)) := by
  cases v with
  | obj o =>
      cases hty : jget o "type" with
      | none =>
          simp only [resolveStep, hty, pure, Except.pure] at h
          injection h with h
          exact Or.inl ⟨h.symm, by simp [keptV, hty]⟩
      | some w =>
          cases w with
          | str p =>
              by_cases htag' : jtruthyO (jget o "tag") = true
              · by_cases hsup' : SUPPORTED_PROTOCOLS.contains p = true
                · simp only [resolveStep, hty, htag', hsup', Bool.not_true,
                    Bool.or_self, Bool.false_eq_true, if_false] at h
                  obtain ⟨pt, hpt, -, -⟩ := contains_to_proxy_type p hsup'
                  cases htagv : jget o "tag" with
                  | none => rw [htagv] at htag'; cases htag'
                  | some tagv =>
                      rw [htagv] at h htag'
                      obtain ⟨spec, hspec, hpure⟩ := exceptBind_ok _ _ _ h
                      rw [hpt] at hpure
                      simp only [pure, Except.pure, Option.getD_some] at hpure
                      injection hpure with hpure
                      exact Or.inr ⟨o, p, tagv, spec, pt, rfl, hty, hsup', htagv,
                        htag', hspec, hpt, hpure.symm⟩
                · have hs0 : SUPPORTED_PROTOCOLS.contains p = false := by
                    cases hx : SUPPORTED_PROTOCOLS.contains p
                    · rfl
                    · exact absurd hx hsup'
                  simp only [resolveStep, hty, hs0, Bool.not_false, Bool.or_true,
                    if_true, pure, Except.pure] at h
                  injection h with h
                  refine Or.inl ⟨h.symm, ?_⟩
                  simp only [keptV, hty]
                  rw [hs0]
                  simp
              · have ht0 : jtruthyO (jget o "tag") = false := by
                  cases hx : jtruthyO (jget o "tag")
                  · rfl
                  · exact absurd hx htag'
                simp only [resolveStep, hty, ht0, Bool.not_false, Bool.true_or,
                  if_true, pure, Except.pure] at h
                injection h with h
                exact Or.inl ⟨h.symm, by simp [keptV, ht0]⟩
          | null =>
              simp only [resolveStep, hty, pure, Except.pure] at h
              injection h with h
              exact Or.inl ⟨h.symm, by simp [keptV, hty]⟩
          | bool b =>
              simp only [resolveStep, hty, pure, Except.pure] at h
              injection h with h
              exact Or.inl ⟨h.symm, by simp [keptV, hty]⟩
          | num n =>
              simp only [resolveStep, hty, pure, Except.pure] at h
              injection h with h
              exact Or.inl ⟨h.symm, by simp [keptV, hty]⟩
          | arr xs =>
              simp only [resolveStep, hty, pure, Except.pure] at h
              injection h with h
              exact Or.inl ⟨h.symm, by simp [keptV, hty]⟩
          | obj kvs =>
              simp only [resolveStep, hty, pure, Except.pure] at h
              injection h with h
              exact Or.inl ⟨h.symm, by simp [keptV, hty]⟩
  | null => exact absurd h (by simp [resolveStep, throw, throwThe, MonadExceptOf.throw])
  | bool b => exact absurd h (by simp [resolveStep, throw, throwThe, MonadExceptOf.throw])
  | num n => exact absurd h (by simp [resolveStep, throw, throwThe, MonadExceptOf.throw])
  | str s => exact absurd h (by simp [resolveStep, throw, throwThe, MonadExceptOf.throw])
  | arr xs => exact absurd h (by simp [resolveStep, throw, throwThe, MonadExceptOf.throw])

theorem resolveStep_byTag_eq (acc acc' : ByTag × ByProto) (v : JVal)
    (h : resolveStep acc v = .ok acc') (t : String) :
    byTagHasTag acc'.1 t = (byTagHasTag acc.1 t || (keptV v && tagStrIs v t)) := by
  rcases resolveStep_cases acc acc' v h with ⟨rfl, hk⟩ |
    ⟨o, p, tagv, spec, pt, rfl, hty, hsup, htagv, htr, hspec, hpt, rfl⟩
  · rw [hk]; simp
  · rw [byTagHasTag_dictSet]
    congr 1
    have hmem : p ∈ SUPPORTED_PROTOCOLS := by simpa using hsup
    have hkept : keptV (.obj o) = true := by
      simp [keptV, hty, htagv, jtruthyO, htr, hmem]
    rw [hkept, Bool.true_and]
    cases tagv <;> simp [tagStrIs, htagv, pyEq]

theorem resolveStep_bucket_eq (acc acc' : ByTag × ByProto) (v : JVal)
    (h : resolveStep acc v = .ok acc') (pt : ProxyType) (t : String) :
    bucketHasTag acc'.2 pt t =
      (bucketHasTag acc.2 pt t || (keptV v && tagStrIs v t && protoIs v pt)) := by
  rcases resolveStep_cases acc acc' v h with ⟨rfl, hk⟩ |
    ⟨o, p, tagv, spec, pt₀, rfl, hty, hsup, htagv, htr, hspec, hpt, rfl⟩
  · rw [hk]; simp
  · rw [bucketHasTag_append]
    congr 1
    have hmem : p ∈ SUPPORTED_PROTOCOLS := by simpa using hsup
    have hkept : keptV (.obj o) = true := by
      simp [keptV, hty, htagv, jtruthyO, htr, hmem]
    have hst : sHasTag (jupdate (mkBaseSettings o tagv p) spec) t = tagStrIs (.obj o) t := by
      obtain ⟨htagf, -⟩ := settings_meta o tagv p spec hspec
      simp only [sHasTag, htagf, tagStrIs, htagv]
    have hpi : protoIs (.obj o) pt = decide (pt₀ = pt) := by
      simp [protoIs, hty, hpt]
    rw [hkept, hst, hpi, Bool.true_and, Bool.and_comm]

theorem foldlM_resolve_inv (P : ByTag × ByProto → Prop)
    (hstep : ∀ acc acc' v, resolveStep acc v = .ok acc' → P acc → P acc') :
    ∀ (inbs : List JVal) (acc res : ByTag × ByProto),
      inbs.foldlM resolveStep acc = .ok res → P acc → P res := by
  intro inbs
  induction inbs with
  | nil =>
      intro acc res hf hP
      rw [List.foldlM_nil] at hf
      simp only [pure, Except.pure] at hf
      injection hf with hf
      exact hf ▸ hP
  | cons v inbs ih =>
      intro acc res hf hP
      rw [List.foldlM_cons] at hf
      obtain ⟨acc₁, hstep₁, hrest⟩ := exceptBind_ok _ _ _ hf
      exact ih acc₁ res hrest (hstep acc acc₁ v hstep₁ hP)

theorem foldl_resolve_byTag_origin :
    ∀ (inbs : List JVal) (acc res : ByTag × ByProto),
      inbs.foldlM resolveStep acc = .ok res →
      ∀ t, byTagHasTag res.1 t = true →
        byTagHasTag acc.1 t = true ∨ ∃ v ∈ inbs, (keptV v && tagStrIs v t) = true := by
  intro inbs
  induction inbs with
  | nil =>
      intro acc res hf t hres
      rw [List.foldlM_nil] at hf
      simp only [pure, Except.pure] at hf
      injection hf with hf
      exact Or.inl (hf ▸ hres)
  | cons v inbs ih =>
      intro acc res hf t hres
      rw [List.foldlM_cons] at hf
      obtain ⟨acc₁, hstep₁, hrest⟩ := exceptBind_ok _ _ _ hf
      rcases ih acc₁ res hrest t hres with h1 | ⟨w, hw, hkw⟩
      · rw [resolveStep_byTag_eq acc acc₁ v hstep₁ t] at h1
        rcases (Bool.or_eq_true _ _) ▸ h1 with h2 | h2
        · exact Or.inl h2
        · exact Or.inr ⟨v, List.mem_cons_self _ _, h2⟩
      · exact Or.inr ⟨w, List.mem_cons_of_mem _ hw, hkw⟩

theorem foldl_resolve_bucket_origin :
    ∀ (inbs : List JVal) (acc res : ByTag × ByProto),
      inbs.foldlM resolveStep acc = .ok res →
      ∀ pt t, bucketHasTag res.2 pt t = true →
        bucketHasTag acc.2 pt t = true ∨
          ∃ v ∈ inbs, (keptV v && tagStrIs v t && protoIs v pt) = true := by
  intro inbs
  induction inbs with
  | nil =>
      intro acc res hf pt t hres
      rw [List.foldlM_nil] at hf
      simp only [pure, Except.pure] at hf
      injection hf with hf
      exact Or.inl (hf ▸ hres)
  | cons v inbs ih =>
      intro acc res hf pt t hres
      rw [List.foldlM_cons] at hf
      obtain ⟨acc₁, hstep₁, hrest⟩ := exceptBind_ok _ _ _ hf
      rcases ih acc₁ res hrest pt t hres with h1 | ⟨w, hw, hkw⟩
      · rw [resolveStep_bucket_eq acc acc₁ v hstep₁ pt t] at h1
        rcases (Bool.or_eq_true _ _) ▸ h1 with h2 | h2
        · exact Or.inl h2
        · exact Or.inr ⟨v, List.mem_cons_self _ _, h2⟩
      · exact Or.inr ⟨w, List.mem_cons_of_mem _ hw, hkw⟩

theorem foldl_resolve_bucket_mono :
    ∀ (inbs : List JVal) (acc res : ByTag × ByProto),
      inbs.foldlM resolveStep acc = .ok res →
      ∀ pt t, bucketHasTag acc.2 pt t = true → bucketHasTag res.2 pt t = true := by
  intro inbs
  induction inbs with
  | nil =>
      intro acc res hf pt t hacc
      rw [List.foldlM_nil] at hf
      simp only [pure, Except.pure] at hf
      injection hf with hf
      exact hf ▸ hacc
  | cons v inbs ih =>
      intro acc res hf pt t hacc
      rw [List.foldlM_cons] at hf
      obtain ⟨acc₁, hstep₁, hrest⟩ := exceptBind_ok _ _ _ hf
      refine ih acc₁ res hrest pt t ?_
      rw [resolveStep_bucket_eq acc acc₁ v hstep₁ pt t, hacc]
      rfl

theorem foldl_resolve_bucket_exists :
    ∀ (inbs : List JVal) (acc res : ByTag × ByProto),
      inbs.foldlM resolveStep acc = .ok res →
      ∀ v ∈ inbs, ∀ pt t,
        (keptV v && tagStrIs v t && protoIs v pt) = true →
        bucketHasTag res.2 pt t = true := by
  intro inbs
  induction inbs with
  | nil => intro acc res hf v hv; simp at hv
  | cons w inbs ih =>
      intro acc res hf v hv pt t hk
      rw [List.foldlM_cons] at hf
      obtain ⟨acc₁, hstep₁, hrest⟩ := exceptBind_ok _ _ _ hf
      rcases List.mem_cons.mp hv with rfl | hv'
      · refine foldl_resolve_bucket_mono inbs acc₁ res hrest pt t ?_
        rw [resolveStep_bucket_eq acc acc₁ v hstep₁ pt t, hk]
        simp
      · exact ih acc₁ res hrest v hv' pt t hk

theorem kept_tag_facts (v : JVal) (t : String)
    (h : (keptV v && tagStrIs v t) = true) :
    ∃ (o : JObj) (p : String), v = .obj o ∧ jget o "type" = some (.str p) ∧
      SUPPORTED_PROTOCOLS.contains p = true ∧ jget o "tag" = some (.str t) ∧
      jtruthyO (jget o "tag") = true := by
  cases v with
  | obj o =>
      rcases (Bool.and_eq_true _ _) ▸ h with ⟨hk, hts⟩
      simp only [keptV] at hk
      rcases (Bool.and_eq_true _ _) ▸ hk with ⟨hkt, htr⟩
      cases hty : jget o "type" with
      | none => rw [hty] at hkt; cases hkt
      | some w =>
          cases w with
          | str p =>
              rw [hty] at hkt
              simp only [tagStrIs] at hts
              cases htagv : jget o "tag" with
              | none => rw [htagv] at hts; cases hts
              | some tv =>
                  rw [htagv] at hts
                  cases tv with
                  | str x =>
                      have hx : x = t := by simpa using hts
                      subst hx
                      exact ⟨o, p, rfl, hty, hkt, htagv, htr⟩
                  | null => cases hts
                  | bool b => cases hts
                  | num n => cases hts
                  | arr xs => cases hts
                  | obj kvs => cases hts
          | null => rw [hty] at hkt; cases hkt
          | bool b => rw [hty] at hkt; cases hkt
          | num n => rw [hty] at hkt; cases hkt
          | arr xs => rw [hty] at hkt; cases hkt
          | obj kvs => rw [hty] at hkt; cases hkt
  | null => simp [keptV] at h
  | bool b => simp [keptV] at h
  | num n => simp [keptV] at h
  | str a => simp [keptV] at h
  | arr xs => simp [keptV] at h

theorem protoIs_det (o : JObj) (p : String) (pt : ProxyType)
    (hty : jget o "type" = some (.str p)) (h : protoIs (.obj o) pt = true) :
    protocol_to_proxy_type p = some pt := by
  simp only [protoIs, hty] at h
  exact of_decide_eq_true h

/-- C3 (amended): the derived indices contain only supported-protocol
settings records (an unsupported inbound, e.g. vless, never appears in
either index and is left untouched by `include_db_users`), and —
provided no two indexed inbounds share a tag across different declared
types — every tag in `inbounds_by_tag` appears in exactly one protocol
bucket of `inbounds_by_protocol`. -/
theorem resolve_inbounds_indices_sound
    (doc : JObj) (inbs : List JVal) (bt : ByTag) (bp : ByProto)
    (hin : jgetD doc "inbounds" (.arr []) = .arr inbs)
    (h : resolve_inbounds doc = .ok (bt, bp)) :
    (∀ kv ∈ bt, ∃ p, SUPPORTED_PROTOCOLS.contains p = true ∧
      jget kv.2 "protocol" = some (.str p)) ∧
    (∀ b ∈ bp, (b.1 = .hysteria2 ∨ b.1 = .tuic ∨ b.1 = .wireguard) ∧
      ∀ s ∈ b.2, jget s "protocol" = some (.str (ptName b.1))) ∧
    (∀ (us : List DBUser) (o : JObj), inboundSupported o = false →
      transformInbound us o = o) ∧
    ((∀ (o₁ o₂ : JObj) (p₁ p₂ : String),
        JVal.obj o₁ ∈ inbs → JVal.obj o₂ ∈ inbs →
        jget o₁ "type" = some (.str p₁) → SUPPORTED_PROTOCOLS.contains p₁ = true →
        jget o₂ "type" = some (.str p₂) → SUPPORTED_PROTOCOLS.contains p₂ = true →
        jtruthyO (jget o₁ "tag") = true → jtruthyO (jget o₂ "tag") = true →
        jget o₁ "tag" = jget o₂ "tag" → p₁ = p₂) →
      ∀ t, byTagHasTag bt t = true → ∃! pt, bucketHasTag bp pt t = true) := by
  have hfold : inbs.foldlM resolveStep ([], []) = .ok (bt, bp) := by
    unfold resolve_inbounds at h
    rw [hin] at h
    exact h
  refine ⟨?_, ?_, transformInbound_unsupported, ?_⟩
  · refine foldlM_resolve_inv
      (fun acc => ∀ kv ∈ acc.1, ∃ p, SUPPORTED_PROTOCOLS.contains p = true ∧
        jget kv.2 "protocol" = some (.str p)) ?_ inbs ([], []) (bt, bp) hfold ?_
    · intro acc acc' v hst hP
      rcases resolveStep_cases acc acc' v hst with ⟨rfl, -⟩ |
        ⟨o, p, tagv, spec, pt, -, hty, hsup, -, -, hspec, hpt, rfl⟩
      · exact hP
      · intro kv hkv
        rcases dictSet_mem _ _ _ kv hkv with h2 | h2
        · exact ⟨p, hsup, by rw [h2]; exact (settings_meta o tagv p spec hspec).2⟩
        · exact hP kv h2
    · intro kv hkv; simp at hkv
  · refine foldlM_resolve_inv
      (fun acc => ∀ b ∈ acc.2, (b.1 = .hysteria2 ∨ b.1 = .tuic ∨ b.1 = .wireguard) ∧
        ∀ s ∈ b.2, jget s "protocol" = some (.str (ptName b.1))) ?_ inbs ([], []) (bt, bp) hfold ?_
    · intro acc acc' v hst hP
      rcases resolveStep_cases acc acc' v hst with ⟨rfl, -⟩ |
        ⟨o, p, tagv, spec, pt, -, hty, hsup, -, -, hspec, hpt, rfl⟩
      · exact hP
      · obtain ⟨pt', hpt', hname, hthree⟩ := contains_to_proxy_type p hsup
        have hptq : pt' = pt := by
          rw [hpt'] at hpt
          injection hpt
        subst hptq
        intro b hb
        rcases bucketAppend_mem _ _ _ b hb with h2 | ⟨hb1, h3⟩
        · exact hP b h2
        · constructor
          · rw [hb1]; exact hthree
          · intro s hs
            rcases h3 with h3 | ⟨ss, hss, h4⟩
            · rw [h3] at hs
              rcases List.mem_singleton.mp hs with rfl
              rw [hb1, hname]
              exact (settings_meta o tagv p spec hspec).2
            · rw [h4] at hs
              rcases List.mem_append.mp hs with hs | hs
              · have := (hP (pt', ss) hss).2 s hs
                rw [hb1]
                exact this
              · rcases List.mem_singleton.mp hs with rfl
                rw [hb1, hname]
                exact (settings_meta o tagv p spec hspec).2
    · intro b hb; simp at hb
  · intro H t hbt
    rcases foldl_resolve_byTag_origin inbs ([], []) (bt, bp) hfold t hbt with h0 | ⟨v, hv, hkv⟩
    · cases h0
    · obtain ⟨o₁, p₁, rfl, hty₁, hsup₁, htag₁, htr₁⟩ := kept_tag_facts v t hkv
      obtain ⟨pt₁, hpt₁, -, -⟩ := contains_to_proxy_type p₁ hsup₁
      have hb1 : bucketHasTag bp pt₁ t = true := by
        refine foldl_resolve_bucket_exists inbs ([], []) (bt, bp) hfold _ hv pt₁ t ?_
        rw [Bool.and_eq_true]
        exact ⟨hkv, by simp [protoIs, hty₁, hpt₁]⟩
      refine ⟨pt₁, hb1, ?_⟩
      intro pt' hb'
      rcases foldl_resolve_bucket_origin inbs ([], []) (bt, bp) hfold pt' t hb' with h0 | ⟨w, hw, hkw⟩
      · cases h0
      · have hkw2 : (keptV w && tagStrIs w t) = true := by
          rcases (Bool.and_eq_true _ _) ▸ hkw with ⟨h12, -⟩
          exact h12
        obtain ⟨o₂, p₂, rfl, hty₂, hsup₂, htag₂, htr₂⟩ := kept_tag_facts w t hkw2
        have hproto : protoIs (.obj o₂) pt' = true := by
          rcases (Bool.and_eq_true _ _) ▸ hkw with ⟨-, h13⟩
          exact h13
        have hpt₂ := protoIs_det o₂ p₂ pt' hty₂ hproto
        have hpeq : p₂ = p₁ :=
          H o₂ o₁ p₂ p₁ hw hv hty₂ hsup₂ hty₁ hsup₁ htr₂ htr₁ (by rw [htag₂, htag₁])
        rw [hpeq, hpt₁] at hpt₂
        injection hpt₂ with hpt₂
        exact hpt₂.symm

/-- Two supported inbounds of different protocols sharing tag `"t"`. -/
def dupTagDoc : JObj :=
  [("inbounds", .arr
    [.obj [("type", .str "hysteria2"), ("tag", .str "t")],
     .obj [("type", .str "tuic"), ("tag", .str "t")]])]

def dupResolved : ByTag × ByProto :=
  (resolve_inbounds dupTagDoc).toOption.getD ([], [])

/-- Counterexample for C3 as stated: with two supported inbounds of
different protocols sharing the tag `"t"`, the tag appears in
`inbounds_by_tag` but in TWO protocol buckets, not exactly one. -/
theorem dup_tag_two_buckets_cex :
    byTagHasTag dupResolved.1 "t" = true ∧
    bucketHasTag dupResolved.2 .hysteria2 "t" = true ∧
    bucketHasTag dupResolved.2 .tuic "t" = true ∧
    ¬ (∃! pt : ProxyType, bucketHasTag dupResolved.2 pt "t" = true) := by
  refine ⟨rfl, rfl, rfl, ?_⟩
  rintro ⟨pt, -, hu⟩
  have h1 := hu .hysteria2 rfl
  have h2 := hu .tuic rfl
  rw [← h1] at h2
  cases h2

def sampleResolved : ByTag × ByProto :=
  (resolve_inbounds sampleDoc).toOption.getD ([], [])

/-- Witness for C3 (amended) at the one-inbound sample document. -/
theorem resolve_inbounds_indices_sound_witness :
    ∃! pt : ProxyType, bucketHasTag sampleResolved.2 pt "h1" = true := by
  have hmain := resolve_inbounds_indices_sound sampleDoc [JVal.obj h1Inbound]
    sampleResolved.1 sampleResolved.2 rfl rfl
  refine hmain.2.2.2 ?_ "h1" rfl
  intro o₁ o₂ p₁ p₂ m₁ m₂ t₁ s₁ t₂ s₂ tr₁ tr₂ heq
  have e₁ : o₁ = h1Inbound := by
    have h := List.mem_singleton.mp m₁
    injection h
  have e₂ : o₂ = h1Inbound := by
    have h := List.mem_singleton.mp m₂
    injection h
  subst e₁
  subst e₂
  have ht₁ : (some (JVal.str "hysteria2") : Option JVal) = some (.str p₁) := t₁
  have ht₂ : (some (JVal.str "hysteria2") : Option JVal) = some (.str p₂) := t₂
  injection ht₁ with ht₁
  injection ht₂ with ht₂
  injection ht₁ with ht₁
  injection ht₂ with ht₂
  rw [← ht₁, ← ht₂]

/-- A document whose only inbound is an unsupported (vless) protocol. -/
def vlessInbound : JObj := [("type", .str "vless"), ("tag", .str "v1")]

def vlessOnlyDoc : JObj := [("inbounds", .arr [.obj vlessInbound])]

/-- Counterexample for C2 as stated: on a document whose only inbound is
a vless inbound with no user list, `include_db_users` returns the
document unchanged — the unsupported inbound's user/peer key is ABSENT
in the output, not an explicitly present empty list. -/
theorem unsupported_inbound_untouched_cex :
    include_db_users vlessOnlyDoc [] = .ok vlessOnlyDoc ∧
    jget vlessInbound "users" = none ∧
    jget vlessInbound "peers" = none :=
  ⟨rfl, rfl, rfl⟩

/-- Witness for C2 (amended): the supported inbound of `sampleDoc` with
an empty snapshot gets an explicit empty user list; a vless inbound is
untouched. -/
theorem include_db_users_empty_or_untouched_witness :
    jget (jset h1Inbound "users" (.arr [])) (if "hysteria2" = "wireguard" then "peers" else "users")
      = some (.arr []) := by
  have := (include_db_users_empty_or_untouched sampleDoc [] (jset sampleDoc "inbounds" (.arr [.obj (jset h1Inbound "users" (.arr []))]))
    [.obj h1Inbound] [.obj (jset h1Inbound "users" (.arr []))] rfl rfl (by rw [jget_jset_self])).1
  exact this (jset h1Inbound "users" (.arr [])) "hysteria2" .hysteria2
    (List.mem_singleton.mpr rfl) rfl rfl rfl

/-- Witness for C10: a hysteria2 inbound with no tag at all. -/
theorem falsy_tag_supported_inbound_skipped_witness :
    resolveStep ([], []) (.obj [("type", JVal.str "hysteria2")]) = .ok ([], []) :=
  (falsy_tag_supported_inbound_skipped [("type", JVal.str "hysteria2")]
    "hysteria2" rfl rfl rfl).1 ([], [])

/-! ## Process supervisor (`core.py`) -/

mutual
/-- `json.dumps`: serialization of the document written to the temp
config file (escaping of special characters inside strings is elided;
no claim inspects rendered bytes). -/
def jsonRender : JVal → String
  | .null => "null"
  | .bool true => "true"
  | .bool false => "false"
  | .num n => toString n
  | .str s => "\"" ++ s ++ "\""
  | .arr xs => "[" ++ jsonRenderL xs ++ "]"
  | .obj kvs => "\x7b" ++ jsonRenderO kvs ++ "\x7d"

def jsonRenderL : List JVal → String
  | [] => ""
  | [x] => jsonRender x
  | x :: y :: xs => jsonRender x ++ ", " ++ jsonRenderL (y :: xs)

def jsonRenderO : List (String × JVal) → String
  | [] => ""
  | [(k, v)] => "\"" ++ k ++ "\": " ++ jsonRender v
  | (k, v) :: kv :: kvs => "\"" ++ k ++ "\": " ++ jsonRender v ++ ", " ++ jsonRenderO (kv :: kvs)
end

/-- A spawned engine process: pid and `poll()` result (`none` while the
process is alive, an exit code once it has terminated). -/
structure Process where
  pid : Nat
  exitCode : Option Int
deriving DecidableEq

/-- The `SingBoxCore` supervisor state: process handle, temp config
path, cached version, single-flight restart flag, plus the temp-file
system and fresh-name/pid counters that model the environment. The log
ring buffer and start/stop hooks live on background threads and are
outside this sequential model. -/
structure CoreState where
  process : Option Process
  config_path : Option String
  version : Option String
  restarting : Bool
  files : List (String × String)
  nextTmp : Nat
  nextPid : Nat
deriving DecidableEq

/-- The `started` property: a process handle exists and `poll()` is
`None` (the process is alive). -/
def started (s : CoreState) : Bool :=
  match s.process with
  | none => false
  | some p => p.exitCode.isNone

/-- The single error `start` can raise (`RuntimeError` in the source). -/
inductive CoreError where
  | alreadyRunning
deriving DecidableEq

/-- `tempfile.mkstemp(suffix=".json", prefix="singbox_")`: a fresh path. -/
def tmpName (n : Nat) : String := "/tmp/singbox_" ++ toString n ++ ".json"

def fsWrite (fs : List (String × String)) (path content : String) : List (String × String) :=
  match fs with
  | [] => [(path, content)]
  | (p, c) :: rest =>
      if p = path then (p, content) :: rest else (p, c) :: fsWrite rest path content

def fsExists (fs : List (String × String)) (path : String) : Bool :=
  match fs with
  | [] => false
  | (p, _) :: rest => p == path || fsExists rest path

def fsRemove (fs : List (String × String)) (path : String) : List (String × String) :=
  match fs with
  | [] => []
  | (p, c) :: rest => if p = path then rest else (p, c) :: fsRemove rest path

/-- Python truthiness of `self._config_path`. -/
def pathSet (cp : Option String) : Bool :=
  match cp with
  | some p => !p.isEmpty
  | none => false

/-- `SingBoxCore.start`: raise if already started, else write the
serialized config to a fresh temp file and spawn the engine process. -/
def start (s : CoreState) (config : JObj) : Except CoreError CoreState :=
  if started s = true then .error .alreadyRunning
  else
    .ok { s with
      config_path := some (tmpName s.nextTmp),
      files := fsWrite s.files (tmpName s.nextTmp) (jsonRender (.obj config)),
      nextTmp := s.nextTmp + 1,
      process := some ⟨s.nextPid, none⟩,
      nextPid := s.nextPid + 1 }

/-- `SingBoxCore.stop`: no-op when not started; otherwise terminate the
process (graceful wait escalating to kill — either way the handle is
cleared) and best-effort delete the temp config file. -/
def stop (s : CoreState) : CoreState :=
  if started s = false then s
  else
    let s1 := { s with process := none }
    if pathSet s1.config_path && fsExists s1.files (s1.config_path.getD "") then
      { s1 with files := fsRemove s1.files (s1.config_path.getD ""),
                config_path := none }
    else s1

/-- `SingBoxCore.restart`: single-flight guarded; stop then start, with
the flag cleared on exit. -/
def restart (s : CoreState) (config : JObj) : Except CoreError CoreState :=
  if s.restarting = true then .ok s
  else
    match start (stop { s with restarting := true }) config with
    | .ok s1 => .ok { s1 with restarting := false }
    | .error e => .error e

/-- `SingBoxCore.reload`: degrade to `start` when not running; otherwise
rewrite the existing temp config file in place and send SIGHUP (`sigOk`
models whether `os.kill` succeeds), falling back to `restart` when the
signal fails or the file is gone. -/
def reload (s : CoreState) (config : JObj) (sigOk : Bool) : Except CoreError CoreState :=
  if started s = false then start s config
  else
    if pathSet s.config_path && fsExists s.files (s.config_path.getD "") then
      let s1 := { s with
        files := fsWrite s.files (s.config_path.getD "") (jsonRender (.obj config)) }
      if sigOk then .ok s1
      else restart s1 config
    else restart s config

/-- C7: `reload(C)` on a supervisor that is not running performs exactly
what `start(C)` performs — the same resulting state, spawned process and
written config file. -/
theorem reload_stopped_is_start (s : CoreState) (config : JObj) (sigOk : Bool)
    (h : started s = false) : reload s config sigOk = start s config := by
  unfold reload
  rw [h, if_pos rfl]

/-- An initial, never-started supervisor state. -/
def stoppedCore : CoreState :=
  { process := none, config_path := none, version := none,
    restarting := false, files := [], nextTmp := 0, nextPid := 0 }

/-- Witness for C7 on a concrete stopped supervisor. -/
theorem reload_stopped_is_start_witness :
    reload stoppedCore sampleDoc true = start stoppedCore sampleDoc :=
  reload_stopped_is_start stoppedCore sampleDoc true rfl

/-- C8: `start` raises exactly when a live engine process exists
(`Running`/`Starting`); otherwise it writes the serialized config to a
fresh temp file and spawns the engine. -/
theorem start_already_running_iff (s : CoreState) (config : JObj) :
    (start s config = .error .alreadyRunning ↔ started s = true) ∧
    (started s = true ↔ ∃ p, s.process = some p ∧ p.exitCode = none) ∧
    (started s = false →
      ∃ s1, start s config = .ok s1 ∧
        s1.process = some ⟨s.nextPid, none⟩ ∧ started s1 = true ∧
        s1.config_path = some (tmpName s.nextTmp) ∧
        s1.files = fsWrite s.files (tmpName s.nextTmp) (jsonRender (.obj config))) := by
  refine ⟨?_, ?_, ?_⟩
  · constructor
    · intro h
      by_cases hs : started s = true
      · exact hs
      · have hs0 : started s = false := by
          cases hx : started s
          · rfl
          · exact absurd hx hs
        unfold start at h
        rw [hs0] at h
        simp at h
    · intro hs
      unfold start
      rw [hs, if_pos rfl]
  · constructor
    · intro hs
      cases hp : s.process with
      | none => simp only [started, hp] at hs; cases hs
      | some p =>
          simp only [started, hp] at hs
          refine ⟨p, rfl, ?_⟩
          cases he : p.exitCode
          · rfl
          · rw [he] at hs; simp at hs
    · rintro ⟨p, hp, he⟩
      simp only [started, hp, he, Option.isNone_none]
  · intro hs
    unfold start
    rw [hs]
    exact ⟨_, rfl, rfl, rfl, rfl, rfl⟩

/-- Witness for C8: a live process blocks `start`; a fresh state starts. -/
theorem start_already_running_iff_witness :
    start { stoppedCore with process := some ⟨9, none⟩ } sampleDoc
        = .error .alreadyRunning ∧
    ∃ s1, start stoppedCore sampleDoc = .ok s1 ∧
      s1.process = some ⟨stoppedCore.nextPid, none⟩ ∧ started s1 = true ∧
      s1.config_path = some (tmpName stoppedCore.nextTmp) ∧
      s1.files = fsWrite stoppedCore.files (tmpName stoppedCore.nextTmp)
        (jsonRender (.obj sampleDoc)) :=
  ⟨(start_already_running_iff { stoppedCore with process := some ⟨9, none⟩ }
      sampleDoc).1.mpr rfl,
   (start_already_running_iff stoppedCore sampleDoc).2.2 rfl⟩

/-! ## Reconciliation layer (`operations.py`) -/

/-- `SINGBOX_PROTOCOLS`. -/
def SINGBOX_PROTOCOLS : List ProxyType := [.hysteria2, .tuic, .wireguard]

/-- `is_singbox_protocol`. -/
def is_singbox_protocol (pt : ProxyType) : Bool :=
  SINGBOX_PROTOCOLS.contains pt

/-- One structured log record: (username, affected tags). -/
abbrev LogRec := String × List String

/-- `add_user`: log each supported assignment with non-empty tags, then
unconditionally trigger `_reload_singbox` (the Bool records that the
trigger was invoked). -/
def add_user (u : DBUser) : List LogRec × Bool :=
  (u.inbounds.filterMap (fun pi =>
    if is_singbox_protocol pi.1 && !pi.2.isEmpty
    then some (u.username, pi.2) else none),
   true)

/-- `remove_user`: identical control flow to `add_user`. -/
def remove_user (u : DBUser) : List LogRec × Bool :=
  (u.inbounds.filterMap (fun pi =>
    if is_singbox_protocol pi.1 && !pi.2.isEmpty
    then some (u.username, pi.2) else none),
   true)

/-- `update_user`: log once if any assigned protocol is supported
(`break` after the first), then unconditionally trigger the reload. -/
def update_user (u : DBUser) : List LogRec × Bool :=
  (if u.inbounds.any (fun pi => is_singbox_protocol pi.1)
   then [(u.username, [])] else [],
   true)

/-- Outcome of `_reload_singbox`. -/
inductive ReloadOutcome where
  | noop
  | reloaded (c : CoreState)
  | logged (e : String)

/-- The `try` body of `_reload_singbox`: if the core exists and is
started, regenerate the full user-populated config via
`include_db_users` and hand it to the supervisor `reload`. `usersQ` is
the DB snapshot query (which may raise); `sigOk` models SIGHUP delivery. -/
def reloadSingboxBody (core : Option CoreState) (doc : JObj)
    (usersQ : Except String (List DBUser)) (sigOk : Bool) :
    Except String (Option CoreState) :=
  match core with
  | some c =>
      if started c = true then do
        let users ← usersQ
        let newCfg ← include_db_users doc users
        match reload c newCfg sigOk with
        | .ok c1 => pure (some c1)
        | .error .alreadyRunning => throw "RuntimeError"
      else pure none
  | none => pure none

/-- `_reload_singbox`: return immediately when the feature flag is off;
otherwise run the body and catch-and-log any exception it raises. -/
def reload_singbox (enabled : Bool) (core : Option CoreState) (doc : JObj)
    (usersQ : Except String (List DBUser)) (sigOk : Bool) : ReloadOutcome :=
  if enabled = false then .noop
  else
    match reloadSingboxBody core doc usersQ sigOk with
    | .ok none => .noop
    | .ok (some c1) => .reloaded c1
    | .error e => .logged e

/-- C5: the reconciliation reload trigger is a no-op when the feature
flag is disabled or the engine is not currently running; otherwise it
calls `include_db_users` on the base configuration and passes the
result to the supervisor reload; and every exception raised in that
path is caught and logged, never propagated to the caller. -/
theorem reload_trigger_guards_and_catches (enabled : Bool) (core : Option CoreState)
    (doc : JObj) (usersQ : Except String (List DBUser)) (sigOk : Bool) :
    (enabled = false → reload_singbox enabled core doc usersQ sigOk = .noop) ∧
    (core = none → reload_singbox enabled core doc usersQ sigOk = .noop) ∧
    (∀ c, core = some c → started c = false →
      reload_singbox enabled core doc usersQ sigOk = .noop) ∧
    (∀ c, core = some c → started c = true → enabled = true →
      ∀ users cfg c1, usersQ = .ok users → include_db_users doc users = .ok cfg →
        reload c cfg sigOk = .ok c1 →
        reload_singbox enabled core doc usersQ sigOk = .reloaded c1) ∧
    (∀ e, reloadSingboxBody core doc usersQ sigOk = .error e → enabled = true →
      reload_singbox enabled core doc usersQ sigOk = .logged e) := by
  refine ⟨?_, ?_, ?_, ?_, ?_⟩
  · intro he
    simp [reload_singbox, he]
  · intro hc
    cases enabled with
    | false => simp [reload_singbox]
    | true =>
        simp only [reload_singbox, hc, reloadSingboxBody]
        simp [pure, Except.pure]
  · intro c hc hst
    cases enabled with
    | false => simp [reload_singbox]
    | true =>
        simp only [reload_singbox, hc, reloadSingboxBody, hst]
        simp [pure, Except.pure]
  · intro c hc hst he users cfg c1 hq hinc hrel
    subst he
    have hbody : reloadSingboxBody (some c) doc usersQ sigOk = .ok (some c1) := by
      simp [reloadSingboxBody, hst, hq, hinc, hrel, Bind.bind, Except.bind,
        pure, Except.pure]
    simp [reload_singbox, hc, hbody]
  · intro e hbody he
    subst he
    simp only [reload_singbox, hbody]
    simp

/-- Witness for C5: disabled flag is a no-op; a DB failure on a running
engine is caught and logged. -/
theorem reload_trigger_guards_and_catches_witness :
    reload_singbox false none sampleDoc (.ok []) true = .noop ∧
    reload_singbox true (some { stoppedCore with process := some ⟨3, none⟩ })
        sampleDoc (.error "db down") true = .logged "db down" :=
  ⟨(reload_trigger_guards_and_catches false none sampleDoc (.ok []) true).1 rfl,
   (reload_trigger_guards_and_catches true
      (some { stoppedCore with process := some ⟨3, none⟩ })
      sampleDoc (.error "db down") true).2.2.2.2 "db down" rfl rfl⟩

/-- A user assigned only to the unsupported vless protocol. -/
def vlessUser : DBUser := ⟨1, "vic", .active, [(.vless, ["v1"])], []⟩

/-- Counterexample for C6 as stated: a user whose only assignment is an
unsupported (vless) protocol still triggers the reload — the source
calls `_reload_singbox()` unconditionally, outside the protocol check,
so the reload is NOT conditional on a supported assignment. -/
theorem reload_triggered_without_singbox_assignment_cex :
    (add_user vlessUser).2 = true ∧ (remove_user vlessUser).2 = true ∧
    (update_user vlessUser).2 = true ∧
    vlessUser.inbounds.all (fun pi => !is_singbox_protocol pi.1) = true ∧
    (add_user vlessUser).1 = [] :=
  ⟨rfl, rfl, rfl, rfl, rfl⟩

/-- C6 (amended): `add_user`, `remove_user` and `update_user` inspect
the record's assignment map only to decide what to LOG; the full
configuration reload is triggered unconditionally for every user
record, with no incremental diffing. -/
theorem user_ops_always_reload (u : DBUser) :
    (add_user u).2 = true ∧ (remove_user u).2 = true ∧ (update_user u).2 = true ∧
    ((add_user u).1 ≠ [] ↔
      ∃ pi ∈ u.inbounds, is_singbox_protocol pi.1 = true ∧ pi.2 ≠ []) ∧
    ((update_user u).1 ≠ [] ↔
      ∃ pi ∈ u.inbounds, is_singbox_protocol pi.1 = true) ∧
    (add_user u).1 = (remove_user u).1 := by
  refine ⟨rfl, rfl, rfl, ?_, ?_, rfl⟩
  · simp only [add_user, ne_eq, List.filterMap_eq_nil_iff, not_forall]
    constructor
    · rintro ⟨pi, hpi, hne⟩
      refine ⟨pi, hpi, ?_⟩
      by_cases h1 : is_singbox_protocol pi.1 = true
      · refine ⟨h1, ?_⟩
        intro h2
        apply hne
        rw [if_neg]
        simp [h2]
      · exact absurd (by
          rw [if_neg] at hne
          · exact absurd rfl hne
          · simp [h1]) (fun h => h)
    · rintro ⟨pi, hpi, h1, h2⟩
      refine ⟨pi, hpi, ?_⟩
      rw [if_pos (by simp [h1, h2])]
      simp
  · simp only [update_user]
    by_cases h : u.inbounds.any (fun pi => is_singbox_protocol pi.1) = true
    · rw [if_pos h]
      constructor
      · intro hne
        obtain ⟨pi, hpi, hp⟩ := List.any_eq_true.mp h
        exact ⟨pi, hpi, hp⟩
      · intro hex
        simp
    · rw [if_neg h]
      constructor
      · intro hne
        exact absurd rfl hne
      · rintro ⟨pi, hpi, hp⟩
        exact absurd (List.any_eq_true.mpr ⟨pi, hpi, hp⟩) h

/-- Witness for C6 (amended) at concrete users. -/
theorem user_ops_always_reload_witness :
    (add_user aliceUser).2 = true ∧ (update_user vlessUser).2 = true :=
  ⟨(user_ops_always_reload aliceUser).1,
   (user_ops_always_reload vlessUser).2.2.1⟩

/-! ## C4: deep-copy independence of `copy()`, on a heap model

Python values are heap objects: `copy()`'s independence guarantee is a
statement about object identity, so it is modelled on an explicit heap.
Scalars are immutable; lists/dicts are cells addressed by `Nat`. -/

/-- A heap value (a Python reference or immutable scalar). -/
inductive HVal where
  | null
  | bool (b : Bool)
  | num (n : Int)
  | str (s : String)
  | ref (a : Nat)
deriving DecidableEq

/-- A heap cell: a Python list or dict object. -/
inductive HObj where
  | arr (elems : List HVal)
  | obj (fields : List (String × HVal))
deriving DecidableEq

/-- The values held directly by a cell. -/
def HObj.vals : HObj → List HVal
  | .arr xs => xs
  | .obj kvs => kvs.map Prod.snd

/-- The heap: the cell at address `a` is `mem[a]`; `mem.length` is the
next fresh address. -/
structure Heap where
  mem : List HObj
deriving DecidableEq

/-- In-place mutation of the cell at address `b` (e.g. replacing an
inbound dict's `"users"` list). -/
def Heap.update (h : Heap) (b : Nat) (o : HObj) : Heap := ⟨h.mem.set b o⟩

/-- Every reference in `v` is below `n`. -/
def refBound (n : Nat) : HVal → Bool
  | .ref a => decide (a < n)
  | _ => true

/-- Every reference in `v` lies in `[lo, hi)`. -/
def refIn (lo hi : Nat) : HVal → Bool
  | .ref a => decide (lo ≤ a) && decide (a < hi)
  | _ => true

/-- Every cell of the heap only references existing cells. -/
def heapClosed (h : Heap) : Bool :=
  h.mem.all (fun o => o.vals.all (refBound h.mem.length))

/-- `copy.deepcopy` of each element of a list, threading the heap. -/
def dcopyList (f : Heap → HVal → Heap × HVal) : Heap → List HVal → Heap × List HVal
  | h, [] => (h, [])
  | h, v :: vs =>
      ((dcopyList f (f h v).1 vs).1,
       (f h v).2 :: (dcopyList f (f h v).1 vs).2)

/-- `copy.deepcopy` of each value of a dict, threading the heap. -/
def dcopyKVList (f : Heap → HVal → Heap × HVal) :
    Heap → List (String × HVal) → Heap × List (String × HVal)
  | h, [] => (h, [])
  | h, kv :: kvs =>
      ((dcopyKVList f (f h kv.2).1 kvs).1,
       (kv.1, (f h kv.2).2) :: (dcopyKVList f (f h kv.2).1 kvs).2)

/-- `copy.deepcopy`: recursively clone every reachable cell at a fresh
address. `fuel` bounds the recursion depth; the configuration documents
deep-copied by the source are finite JSON trees, so some fuel suffices. -/
def dcopyV : Nat → Heap → HVal → Heap × HVal
  | 0, h, _ => (h, .null)
  | fuel + 1, h, .ref a =>
      match h.mem[a]? with
      | some (.arr xs) =>
          (⟨(dcopyList (dcopyV fuel) h xs).1.mem ++ [.arr (dcopyList (dcopyV fuel) h xs).2]⟩,
           .ref (dcopyList (dcopyV fuel) h xs).1.mem.length)
      | some (.obj kvs) =>
          (⟨(dcopyKVList (dcopyV fuel) h kvs).1.mem ++ [.obj (dcopyKVList (dcopyV fuel) h kvs).2]⟩,
           .ref (dcopyKVList (dcopyV fuel) h kvs).1.mem.length)
      | none => (h, .null)
  | _ + 1, h, .null => (h, .null)
  | _ + 1, h, .bool b => (h, .bool b)
  | _ + 1, h, .num n => (h, .num n)
  | _ + 1, h, .str s => (h, .str s)

/-- Read the pure document value rooted at a heap value (fuel-bounded). -/
def readV : Nat → Heap → HVal → JVal
  | 0, _, _ => .null
  | fuel + 1, h, .ref a =>
      match h.mem[a]? with
      | some (.arr xs) => .arr (xs.map (readV fuel h))
      | some (.obj kvs) => .obj (kvs.map (fun kv => (kv.1, readV fuel h kv.2)))
      | none => .null
  | _ + 1, _, .null => .null
  | _ + 1, _, .bool b => .bool b
  | _ + 1, _, .num n => .num n
  | _ + 1, _, .str s => .str s

/-- Heap reachability: the addresses of the object graph rooted at `v`. -/
inductive Reaches (mem : List HObj) : HVal → Nat → Prop where
  | here (a : Nat) : Reaches mem (.ref a) a
  | through (a b : Nat) (o : HObj) (w : HVal) :
      mem[a]? = some o → w ∈ o.vals → Reaches mem w b → Reaches mem (.ref a) b

theorem refIn_mono (lo hi lo' hi' : Nat) (v : HVal) (hlo : lo' ≤ lo) (hhi : hi ≤ hi')
    (h : refIn lo hi v = true) : refIn lo' hi' v = true := by
  cases v <;> simp [refIn] at h ⊢ <;> omega

theorem refBound_of_refIn (lo hi : Nat) (v : HVal) (h : refIn lo hi v = true) :
    refBound hi v = true := by
  cases v <;> simp [refIn, refBound] at h ⊢ <;> omega

theorem refBound_mono (n n' : Nat) (v : HVal) (hn : n ≤ n')
    (h : refBound n v = true) : refBound n' v = true := by
  cases v <;> simp [refBound] at h ⊢ <;> omega

theorem mem_ext_len (h h' : Heap) (hext : ∃ t, h'.mem = h.mem ++ t) :
    h.mem.length ≤ h'.mem.length := by
  obtain ⟨t, ht⟩ := hext
  rw [ht, List.length_append]
  omega

theorem mem_ext_get (h h' : Heap) (hext : ∃ t, h'.mem = h.mem ++ t)
    (i : Nat) (hi : i < h.mem.length) : h'.mem[i]? = h.mem[i]? := by
  obtain ⟨t, ht⟩ := hext
  rw [ht, List.getElem?_append, if_pos hi]

/-- New cells of an extension are closed within the new segment. -/
def cellsFresh (h h' : Heap) : Prop :=
  ∀ i o, h.mem.length ≤ i → h'.mem[i]? = some o →
    o.vals.all (refIn h.mem.length h'.mem.length) = true

theorem cellsFresh_trans (h h1 h2 : Heap)
    (he1 : ∃ t, h1.mem = h.mem ++ t) (he2 : ∃ t, h2.mem = h1.mem ++ t)
    (hf1 : cellsFresh h h1) (hf2 : cellsFresh h1 h2) : cellsFresh h h2 := by
  intro i o hi ho
  have hl1 := mem_ext_len h h1 he1
  have hl2 := mem_ext_len h1 h2 he2
  by_cases hcase : i < h1.mem.length
  · rw [mem_ext_get h1 h2 he2 i hcase] at ho
    have := hf1 i o hi ho
    rw [List.all_eq_true] at this ⊢
    intro v hv
    exact refIn_mono _ _ _ _ v (Nat.le_refl _) hl2 (this v hv)
  · have := hf2 i o (Nat.le_of_not_lt hcase) ho
    rw [List.all_eq_true] at this ⊢
    intro v hv
    exact refIn_mono _ _ _ _ v hl1 (Nat.le_refl _) (this v hv)

theorem dcopyList_appends (f : Heap → HVal → Heap × HVal)
    (hf : ∀ h v, ∃ t, (f h v).1.mem = h.mem ++ t) :
    ∀ (vs : List HVal) (h : Heap), ∃ t, (dcopyList f h vs).1.mem = h.mem ++ t := by
  intro vs
  induction vs with
  | nil => intro h; exact ⟨[], by simp [dcopyList]⟩
  | cons v vs ih =>
      intro h
      obtain ⟨t1, ht1⟩ := hf h v
      obtain ⟨t2, ht2⟩ := ih (f h v).1
      refine ⟨t1 ++ t2, ?_⟩
      simp only [dcopyList]
      rw [ht2, ht1, List.append_assoc]

theorem dcopyKVList_appends (f : Heap → HVal → Heap × HVal)
    (hf : ∀ h v, ∃ t, (f h v).1.mem = h.mem ++ t) :
    ∀ (kvs : List (String × HVal)) (h : Heap),
      ∃ t, (dcopyKVList f h kvs).1.mem = h.mem ++ t := by
  intro kvs
  induction kvs with
  | nil => intro h; exact ⟨[], by simp [dcopyKVList]⟩
  | cons kv kvs ih =>
      intro h
      obtain ⟨t1, ht1⟩ := hf h kv.2
      obtain ⟨t2, ht2⟩ := ih (f h kv.2).1
      refine ⟨t1 ++ t2, ?_⟩
      simp only [dcopyKVList]
      rw [ht2, ht1, List.append_assoc]

theorem dcopyV_appends :
    ∀ (fuel : Nat) (h : Heap) (v : HVal), ∃ t, (dcopyV fuel h v).1.mem = h.mem ++ t := by
  intro fuel
  induction fuel with
  | zero => intro h v; exact ⟨[], by simp [dcopyV]⟩
  | succ f ih =>
      intro h v
      cases v with
      | ref a =>
          cases hm : h.mem[a]? with
          | none => exact ⟨[], by simp [dcopyV, hm]⟩
          | some c =>
              cases c with
              | arr xs =>
                  obtain ⟨t1, ht1⟩ := dcopyList_appends (dcopyV f) ih xs h
                  refine ⟨t1 ++ [.arr (dcopyList (dcopyV f) h xs).2], ?_⟩
                  simp only [dcopyV, hm]
                  rw [ht1, List.append_assoc]
              | obj kvs =>
                  obtain ⟨t1, ht1⟩ := dcopyKVList_appends (dcopyV f) ih kvs h
                  refine ⟨t1 ++ [.obj (dcopyKVList (dcopyV f) h kvs).2], ?_⟩
                  simp only [dcopyV, hm]
                  rw [ht1, List.append_assoc]
      | null => exact ⟨[], by simp [dcopyV]⟩
      | bool b => exact ⟨[], by simp [dcopyV]⟩
      | num n => exact ⟨[], by simp [dcopyV]⟩
      | str s => exact ⟨[], by simp [dcopyV]⟩

theorem dcopyList_fresh (f : Heap → HVal → Heap × HVal)
    (hfapp : ∀ h v, ∃ t, (f h v).1.mem = h.mem ++ t)
    (hfv : ∀ h v, refIn h.mem.length (f h v).1.mem.length (f h v).2 = true)
    (hfc : ∀ h v, cellsFresh h (f h v).1) :
    ∀ (vs : List HVal) (h : Heap),
      (dcopyList f h vs).2.all
        (refIn h.mem.length (dcopyList f h vs).1.mem.length) = true ∧
      cellsFresh h (dcopyList f h vs).1 := by
  intro vs
  induction vs with
  | nil =>
      intro h
      constructor
      · simp [dcopyList]
      · intro i o hi ho
        simp only [dcopyList] at ho
        rw [List.getElem?_eq_none hi] at ho
        cases ho
  | cons v vs ih =>
      intro h
      have he1 := hfapp h v
      have he2 := dcopyList_appends f hfapp vs (f h v).1
      have hl1 := mem_ext_len _ _ he1
      have hl2 := mem_ext_len _ _ he2
      obtain ⟨hvals, hcells⟩ := ih (f h v).1
      constructor
      · simp only [dcopyList, List.all_cons, Bool.and_eq_true]
        constructor
        · exact refIn_mono _ _ _ _ _ (Nat.le_refl _) hl2 (hfv h v)
        · rw [List.all_eq_true] at hvals ⊢
          intro w hw
          exact refIn_mono _ _ _ _ w hl1 (Nat.le_refl _) (hvals w hw)
      · show cellsFresh h (dcopyList f (f h v).1 vs).1
        exact cellsFresh_trans h (f h v).1 _ he1 he2 (hfc h v) hcells

theorem dcopyKVList_fresh (f : Heap → HVal → Heap × HVal)
    (hfapp : ∀ h v, ∃ t, (f h v).1.mem = h.mem ++ t)
    (hfv : ∀ h v, refIn h.mem.length (f h v).1.mem.length (f h v).2 = true)
    (hfc : ∀ h v, cellsFresh h (f h v).1) :
    ∀ (kvs : List (String × HVal)) (h : Heap),
      ((dcopyKVList f h kvs).2.map Prod.snd).all
        (refIn h.mem.length (dcopyKVList f h kvs).1.mem.length) = true ∧
      cellsFresh h (dcopyKVList f h kvs).1 := by
  intro kvs
  induction kvs with
  | nil =>
      intro h
      constructor
      · simp [dcopyKVList]
      · intro i o hi ho
        simp only [dcopyKVList] at ho
        rw [List.getElem?_eq_none hi] at ho
        cases ho
  | cons kv kvs ih =>
      intro h
      have he1 := hfapp h kv.2
      have he2 := dcopyKVList_appends f hfapp kvs (f h kv.2).1
      have hl1 := mem_ext_len _ _ he1
      have hl2 := mem_ext_len _ _ he2
      obtain ⟨hvals, hcells⟩ := ih (f h kv.2).1
      constructor
      · simp only [dcopyKVList, List.map_cons, List.all_cons, Bool.and_eq_true]
        constructor
        · exact refIn_mono _ _ _ _ _ (Nat.le_refl _) hl2 (hfv h kv.2)
        · rw [List.all_eq_true] at hvals ⊢
          intro w hw
          exact refIn_mono _ _ _ _ w hl1 (Nat.le_refl _) (hvals w hw)
      · show cellsFresh h (dcopyKVList f (f h kv.2).1 kvs).1
        exact cellsFresh_trans h (f h kv.2).1 _ he1 he2 (hfc h kv.2) hcells

theorem dcopyV_fresh :
    ∀ (fuel : Nat) (h : Heap) (v : HVal),
      refIn h.mem.length (dcopyV fuel h v).1.mem.length (dcopyV fuel h v).2 = true ∧
      cellsFresh h (dcopyV fuel h v).1 := by
  intro fuel
  induction fuel with
  | zero =>
      intro h v
      refine ⟨by simp [dcopyV, refIn], ?_⟩
      intro i o hi ho
      simp only [dcopyV] at ho
      rw [List.getElem?_eq_none hi] at ho
      cases ho
  | succ f ih =>
      have ihapp : ∀ h v, ∃ t, ((dcopyV f) h v).1.mem = h.mem ++ t := dcopyV_appends f
      have ihv : ∀ h v, refIn h.mem.length ((dcopyV f) h v).1.mem.length ((dcopyV f) h v).2 = true :=
        fun h v => (ih h v).1
      have ihc : ∀ h v, cellsFresh h ((dcopyV f) h v).1 := fun h v => (ih h v).2
      intro h v
      cases v with
      | ref a =>
          cases hm : h.mem[a]? with
          | none =>
              refine ⟨by simp [dcopyV, hm, refIn], ?_⟩
              intro i o hi ho
              simp only [dcopyV, hm] at ho
              rw [List.getElem?_eq_none hi] at ho
              cases ho
          | some c =>
              cases c with
              | arr xs =>
                  obtain ⟨hvals, hcells⟩ := dcopyList_fresh (dcopyV f) ihapp ihv ihc xs h
                  have he1 := dcopyList_appends (dcopyV f) ihapp xs h
                  have hl1 := mem_ext_len _ _ he1
                  constructor
                  · simp only [dcopyV, hm, refIn, List.length_append,
                      List.length_cons, List.length_nil]
                    simp
                    omega
                  · intro i o hi ho
                    simp only [dcopyV, hm] at ho
                    by_cases hcase : i < (dcopyList (dcopyV f) h xs).1.mem.length
                    · rw [List.getElem?_append, if_pos hcase] at ho
                      have := hcells i o hi ho
                      rw [List.all_eq_true] at this ⊢
                      intro w hw
                      refine refIn_mono _ _ _ _ w (Nat.le_refl _) ?_ (this w hw)
                      simp only [dcopyV, hm, List.length_append]
                      omega
                    · rw [List.getElem?_append, if_neg hcase] at ho
                      have hi2 : i - (dcopyList (dcopyV f) h xs).1.mem.length = 0 ∨
                          1 ≤ i - (dcopyList (dcopyV f) h xs).1.mem.length := by omega
                      rcases hi2 with hi2 | hi2
                      · rw [hi2] at ho
                        simp at ho
                        rw [← ho]
                        simp only [HObj.vals]
                        rw [List.all_eq_true] at hvals ⊢
                        intro w hw
                        refine refIn_mono _ _ _ _ w (Nat.le_refl _) ?_ (hvals w hw)
                        simp only [dcopyV, hm, List.length_append]
                        omega
                      · rw [List.getElem?_eq_none (by simp; omega)] at ho
                        cases ho
              | obj kvs =>
                  obtain ⟨hvals, hcells⟩ := dcopyKVList_fresh (dcopyV f) ihapp ihv ihc kvs h
                  have he1 := dcopyKVList_appends (dcopyV f) ihapp kvs h
                  have hl1 := mem_ext_len _ _ he1
                  constructor
                  · simp only [dcopyV, hm, refIn, List.length_append,
                      List.length_cons, List.length_nil]
                    simp
                    omega
                  · intro i o hi ho
                    simp only [dcopyV, hm] at ho
                    by_cases hcase : i < (dcopyKVList (dcopyV f) h kvs).1.mem.length
                    · rw [List.getElem?_append, if_pos hcase] at ho
                      have := hcells i o hi ho
                      rw [List.all_eq_true] at this ⊢
                      intro w hw
                      refine refIn_mono _ _ _ _ w (Nat.le_refl _) ?_ (this w hw)
                      simp only [dcopyV, hm, List.length_append]
                      omega
                    · rw [List.getElem?_append, if_neg hcase] at ho
                      have hi2 : i - (dcopyKVList (dcopyV f) h kvs).1.mem.length = 0 ∨
                          1 ≤ i - (dcopyKVList (dcopyV f) h kvs).1.mem.length := by omega
                      rcases hi2 with hi2 | hi2
                      · rw [hi2] at ho
                        simp at ho
                        rw [← ho]
                        simp only [HObj.vals]
                        rw [List.all_eq_true] at hvals ⊢
                        intro w hw
                        refine refIn_mono _ _ _ _ w (Nat.le_refl _) ?_ (hvals w hw)
                        simp only [dcopyV, hm, List.length_append]
                        omega
                      · rw [List.getElem?_eq_none (by simp; omega)] at ho
                        cases ho
      | null =>
          refine ⟨by simp [dcopyV, refIn], ?_⟩
          intro i o hi ho
          simp only [dcopyV] at ho
          rw [List.getElem?_eq_none hi] at ho
          cases ho
      | bool b =>
          refine ⟨by simp [dcopyV, refIn], ?_⟩
          intro i o hi ho
          simp only [dcopyV] at ho
          rw [List.getElem?_eq_none hi] at ho
          cases ho
      | num n =>
          refine ⟨by simp [dcopyV, refIn], ?_⟩
          intro i o hi ho
          simp only [dcopyV] at ho
          rw [List.getElem?_eq_none hi] at ho
          cases ho
      | str a =>
          refine ⟨by simp [dcopyV, refIn], ?_⟩
          intro i o hi ho
          simp only [dcopyV] at ho
          rw [List.getElem?_eq_none hi] at ho
          cases ho

/-- Cells below `n` only reference below `n`. -/
def memClosedBelow (n : Nat) (mem : List HObj) : Prop :=
  ∀ i o, i < n → mem[i]? = some o → o.vals.all (refBound n) = true

/-- Reads of a graph closed below `n` ignore mutations at addresses
`≥ n`. -/
theorem readV_update_high :
    ∀ (fuel : Nat) (h : Heap) (n b : Nat) (o : HObj),
      n ≤ b → memClosedBelow n h.mem →
      ∀ v, refBound n v = true →
        readV fuel (h.update b o) v = readV fuel h v := by
  intro fuel
  induction fuel with
  | zero => intro h n b o hnb hcl v hv; rfl
  | succ f ih =>
      intro h n b o hnb hcl v hv
      cases v with
      | ref a =>
          have ha : a < n := by simpa [refBound] using hv
          have hne : b ≠ a := by omega
          have hget : (h.update b o).mem[a]? = h.mem[a]? := by
            show (h.mem.set b o)[a]? = h.mem[a]?
            exact List.getElem?_set_ne hne
          cases hm : h.mem[a]? with
          | none => simp only [readV, hget, hm]
          | some c =>
              have hcell := hcl a c ha hm
              cases c with
              | arr xs =>
                  simp only [readV, hget, hm]
                  congr 1
                  refine List.map_congr_left ?_
                  intro w hw
                  refine ih h n b o hnb hcl w ?_
                  simp only [HObj.vals] at hcell
                  exact List.all_eq_true.mp hcell w hw
              | obj kvs =>
                  simp only [readV, hget, hm]
                  congr 1
                  refine List.map_congr_left ?_
                  intro kv hkv
                  have hw : kv.2 ∈ (HObj.obj kvs).vals := by
                    simp only [HObj.vals]
                    exact List.mem_map_of_mem Prod.snd hkv
                  rw [ih h n b o hnb hcl kv.2 (List.all_eq_true.mp hcell kv.2 hw)]
      | null => rfl
      | bool c => rfl
      | num c => rfl
      | str c => rfl

/-- Reachability from a value whose references lie in a self-contained
segment `[lo, _)` never leaves addresses `≥ lo`. -/
theorem reaches_in_segment (mem : List HObj) (lo hi : Nat)
    (hseg : ∀ i o, lo ≤ i → mem[i]? = some o →
      o.vals.all (refIn lo hi) = true) :
    ∀ v b, Reaches mem v b → refIn lo hi v = true → lo ≤ b := by
  intro v b hr
  induction hr with
  | here a =>
      intro hv
      have : lo ≤ a ∧ a < hi := by simpa [refIn] using hv
      exact this.1
  | through a b o w hmem hw hr ih =>
      intro hv
      have ha : lo ≤ a ∧ a < hi := by simpa [refIn] using hv
      have hcell := hseg a o ha.1 hmem
      exact ih (List.all_eq_true.mp hcell w hw)

/-- The heap-level `SingBoxConfig`: the raw document and the two derived
indices, each a reference into the heap. -/
structure SBCfgH where
  document : HVal
  inbounds_by_tag : HVal
  inbounds_by_protocol : HVal
deriving DecidableEq

/-- `SingBoxConfig.copy()`: `deepcopy` of the document and of both
derived indices, threading the heap left to right. -/
def copyH (fuel : Nat) (h : Heap) (c : SBCfgH) : Heap × SBCfgH :=
  ((dcopyV fuel (dcopyV fuel (dcopyV fuel h c.document).1 c.inbounds_by_tag).1
      c.inbounds_by_protocol).1,
   ⟨(dcopyV fuel h c.document).2,
    (dcopyV fuel (dcopyV fuel h c.document).1 c.inbounds_by_tag).2,
    (dcopyV fuel (dcopyV fuel (dcopyV fuel h c.document).1 c.inbounds_by_tag).1
      c.inbounds_by_protocol).2⟩)

theorem copyH_spec (fuel : Nat) (h : Heap) (c : SBCfgH) :
    (∃ t, (copyH fuel h c).1.mem = h.mem ++ t) ∧
    refIn h.mem.length (copyH fuel h c).1.mem.length (copyH fuel h c).2.document = true ∧
    refIn h.mem.length (copyH fuel h c).1.mem.length (copyH fuel h c).2.inbounds_by_tag = true ∧
    refIn h.mem.length (copyH fuel h c).1.mem.length (copyH fuel h c).2.inbounds_by_protocol = true ∧
    cellsFresh h (copyH fuel h c).1 := by
  simp only [copyH]
  have he1 := dcopyV_appends fuel h c.document
  have he2 := dcopyV_appends fuel (dcopyV fuel h c.document).1 c.inbounds_by_tag
  have he3 := dcopyV_appends fuel
    (dcopyV fuel (dcopyV fuel h c.document).1 c.inbounds_by_tag).1 c.inbounds_by_protocol
  have hl1 := mem_ext_len _ _ he1
  have hl2 := mem_ext_len _ _ he2
  have hl3 := mem_ext_len _ _ he3
  have hf1 := dcopyV_fresh fuel h c.document
  have hf2 := dcopyV_fresh fuel (dcopyV fuel h c.document).1 c.inbounds_by_tag
  have hf3 := dcopyV_fresh fuel
    (dcopyV fuel (dcopyV fuel h c.document).1 c.inbounds_by_tag).1 c.inbounds_by_protocol
  have he12 : ∃ t, (dcopyV fuel (dcopyV fuel h c.document).1 c.inbounds_by_tag).1.mem
      = h.mem ++ t := by
    obtain ⟨t1, ht1⟩ := he1
    obtain ⟨t2, ht2⟩ := he2
    exact ⟨t1 ++ t2, by rw [ht2, ht1, List.append_assoc]⟩
  refine ⟨?_, ?_, ?_, ?_, ?_⟩
  · obtain ⟨t12, ht12⟩ := he12
    obtain ⟨t3, ht3⟩ := he3
    exact ⟨t12 ++ t3, by rw [ht3, ht12, List.append_assoc]⟩
  · exact refIn_mono _ _ _ _ _ (Nat.le_refl _) (Nat.le_trans hl2 hl3) hf1.1
  · exact refIn_mono _ _ _ _ _ hl1 hl3 hf2.1
  · exact refIn_mono _ _ _ _ _ (Nat.le_trans hl1 hl2) (Nat.le_refl _) hf3.1
  · exact cellsFresh_trans h _ _ he12 he3
      (cellsFresh_trans h _ _ he1 he2 hf1.2 hf2.2) hf3.2

/-- C4: `copy()` returns a structurally independent deep copy including
both derived indices: mutating any heap cell reachable from a
later-issued copy's document or indices leaves the document and both
indices read from the original, and from every previously issued copy,
unchanged. -/
theorem copy_deep_independence (fuel : Nat) (h₀ h₁ h₂ : Heap) (c₀ c₁ c₂ : SBCfgH)
    (hcl : heapClosed h₀ = true)
    (hd : refBound h₀.mem.length c₀.document = true)
    (ht : refBound h₀.mem.length c₀.inbounds_by_tag = true)
    (hp : refBound h₀.mem.length c₀.inbounds_by_protocol = true)
    (hc₁ : copyH fuel h₀ c₀ = (h₁, c₁))
    (hc₂ : copyH fuel h₁ c₀ = (h₂, c₂))
    (b : Nat) (o : HObj)
    (hreach : Reaches h₂.mem c₂.document b ∨ Reaches h₂.mem c₂.inbounds_by_tag b ∨
      Reaches h₂.mem c₂.inbounds_by_protocol b) :
    ∀ rf : Nat,
      (readV rf (h₂.update b o) c₀.document = readV rf h₂ c₀.document ∧
       readV rf (h₂.update b o) c₀.inbounds_by_tag = readV rf h₂ c₀.inbounds_by_tag ∧
       readV rf (h₂.update b o) c₀.inbounds_by_protocol = readV rf h₂ c₀.inbounds_by_protocol) ∧
      (readV rf (h₂.update b o) c₁.document = readV rf h₂ c₁.document ∧
       readV rf (h₂.update b o) c₁.inbounds_by_tag = readV rf h₂ c₁.inbounds_by_tag ∧
       readV rf (h₂.update b o) c₁.inbounds_by_protocol = readV rf h₂ c₁.inbounds_by_protocol) := by
  have spec₁ := copyH_spec fuel h₀ c₀
  rw [hc₁] at spec₁
  have spec₂ := copyH_spec fuel h₁ c₀
  rw [hc₂] at spec₂
  obtain ⟨hext₁, hrd₁, hrt₁, hrp₁, hcf₁⟩ := spec₁
  obtain ⟨hext₂, hrd₂, hrt₂, hrp₂, hcf₂⟩ := spec₂
  have hl01 := mem_ext_len _ _ hext₁
  have hl12 := mem_ext_len _ _ hext₂
  have hb : h₁.mem.length ≤ b := by
    rcases hreach with hr | hr | hr
    · exact reaches_in_segment h₂.mem h₁.mem.length h₂.mem.length hcf₂ _ b hr hrd₂
    · exact reaches_in_segment h₂.mem h₁.mem.length h₂.mem.length hcf₂ _ b hr hrt₂
    · exact reaches_in_segment h₂.mem h₁.mem.length h₂.mem.length hcf₂ _ b hr hrp₂
  have hcl' : ∀ c ∈ h₀.mem, c.vals.all (refBound h₀.mem.length) = true :=
    fun c hcm => List.all_eq_true.mp hcl c hcm
  have hcl0 : memClosedBelow h₀.mem.length h₂.mem := by
    intro i c hi hc
    have hg1 : h₂.mem[i]? = h₁.mem[i]? :=
      mem_ext_get _ _ hext₂ i (Nat.lt_of_lt_of_le hi hl01)
    have hg0 : h₁.mem[i]? = h₀.mem[i]? := mem_ext_get _ _ hext₁ i hi
    rw [hg1, hg0] at hc
    exact hcl' c (List.getElem?_mem hc)
  have hcl1 : memClosedBelow h₁.mem.length h₂.mem := by
    intro i c hi hc
    have hg1 : h₂.mem[i]? = h₁.mem[i]? := mem_ext_get _ _ hext₂ i hi
    rw [hg1] at hc
    by_cases hi0 : i < h₀.mem.length
    · have hg0 : h₁.mem[i]? = h₀.mem[i]? := mem_ext_get _ _ hext₁ i hi0
      rw [hg0] at hc
      have hall := hcl' c (List.getElem?_mem hc)
      rw [List.all_eq_true] at hall ⊢
      intro w hw
      exact refBound_mono _ _ w hl01 (hall w hw)
    · have hall := hcf₁ i c (Nat.le_of_not_lt hi0) hc
      rw [List.all_eq_true] at hall ⊢
      intro w hw
      exact refBound_of_refIn _ _ w (hall w hw)
  intro rf
  refine ⟨⟨?_, ?_, ?_⟩, ⟨?_, ?_, ?_⟩⟩
  · exact readV_update_high rf h₂ h₀.mem.length b o (Nat.le_trans hl01 hb) hcl0 _ hd
  · exact readV_update_high rf h₂ h₀.mem.length b o (Nat.le_trans hl01 hb) hcl0 _ ht
  · exact readV_update_high rf h₂ h₀.mem.length b o (Nat.le_trans hl01 hb) hcl0 _ hp
  · exact readV_update_high rf h₂ h₁.mem.length b o hb hcl1 _
      (refBound_of_refIn _ _ _ hrd₁)
  · exact readV_update_high rf h₂ h₁.mem.length b o hb hcl1 _
      (refBound_of_refIn _ _ _ hrt₁)
  · exact readV_update_high rf h₂ h₁.mem.length b o hb hcl1 _
      (refBound_of_refIn _ _ _ hrp₁)

/-- Witness for C4 on a one-cell heap: the original document is an empty
list object at address 0; the second copy's document is the fresh cell
at address 2; mutating that cell leaves the original's read unchanged. -/
theorem copy_deep_independence_witness :
    readV 2 (Heap.update ⟨[.arr [], .arr [], .arr []]⟩ 2 (.arr [.num 5])) (.ref 0) =
      readV 2 ⟨[.arr [], .arr [], .arr []]⟩ (.ref 0) :=
  ((copy_deep_independence 1 ⟨[.arr []]⟩ ⟨[.arr [], .arr []]⟩
      ⟨[.arr [], .arr [], .arr []]⟩
      ⟨.ref 0, .null, .null⟩ ⟨.ref 1, .null, .null⟩ ⟨.ref 2, .null, .null⟩
      rfl rfl rfl rfl rfl rfl 2 (.arr [.num 5])
      (Or.inl (Reaches.here 2)) 2).1).1

end SingBox
